import Mathlib

/-!
Verification of the maptoposter web service (src/app/renderer.py, src/app/routes.py)
against its natural-language specification.

The development shallowly embeds the program: pure Python functions become Lean
functions over `List Char` / `String` / `ℚ`; effectful code (geocoding, map fetch,
file writes) is modelled by passing in the outcome of each external effect and
propagating exceptions through `Except`.  Machine floats of the source are modelled
as exact rationals; character classes of the CPython stdlib are modelled over the
code-point sets documented in CPython.
-/

namespace MapToPoster

/-! ### Character sets and small Python string primitives -/

/-- The apostrophe character (written via its code point). -/
def apos : Char := Char.ofNat 39

/-- Tab character. -/
def tabC : Char := Char.ofNat 9

/-- Line feed. -/
def lfC : Char := Char.ofNat 10

/-- Vertical tab. -/
def vtC : Char := Char.ofNat 11

/-- Form feed. -/
def ffC : Char := Char.ofNat 12

/-- Carriage return. -/
def crC : Char := Char.ofNat 13

/-- The ASCII whitespace characters recognized by CPython textwrap
(`textwrap._whitespace`). -/
def asciiWsChars : List Char := [tabC, lfC, vtC, ffC, crC, ' ']

/-- Membership in `textwrap._whitespace`. -/
def isAsciiWs (c : Char) : Bool := asciiWsChars.contains c

/-- The code points for which CPython `str.isspace` holds; `str.strip()` with no
argument strips exactly these characters. -/
def pySpaceCodes : List Nat :=
  [0x9, 0xa, 0xb, 0xc, 0xd, 0x1c, 0x1d, 0x1e, 0x1f, 0x20, 0x85, 0xa0, 0x1680,
   0x2000, 0x2001, 0x2002, 0x2003, 0x2004, 0x2005, 0x2006, 0x2007, 0x2008, 0x2009,
   0x200a, 0x2028, 0x2029, 0x202f, 0x205f, 0x3000]

/-- CPython per-character whitespace test used by `str.strip()`. -/
def isPySpace (c : Char) : Bool := pySpaceCodes.contains c.toNat

/-- Models the Python test `s.strip() == ''` (equivalently, `not s.strip()`):
true iff every character is Unicode whitespace. -/
def pyIsBlank (l : List Char) : Bool := l.all isPySpace

/-- Python `str.split(sep)` for a one-character separator (as in
`message.split(chr(10))`). -/
def splitOnChar (sep : Char) : List Char → List (List Char)
  | [] => [[]]
  | c :: rest =>
    match splitOnChar sep rest with
    | [] => [[]]
    | h :: t => if c = sep then [] :: h :: t else (c :: h) :: t

/-- Python `sep.join(parts)` for the newline separator, at the character level. -/
def joinNlChars : List (List Char) → List Char
  | [] => []
  | [p] => p
  | p :: rest => p ++ lfC :: joinNlChars rest

/-- Python newline `join` on strings. -/
def joinNl (ls : List String) : String := ⟨joinNlChars (ls.map String.data)⟩

/-- Python `str.replace(old, new)` where both arguments are single characters. -/
def pyReplaceChar (old new : Char) (l : List Char) : List Char :=
  l.map fun c => if c = old then new else c

/-- Python `str.replace(old, "")` for a one-character pattern: deletes every
occurrence. -/
def pyRemoveChar (old : Char) (l : List Char) : List Char :=
  l.filter fun c => ¬ c = old

/-- Python `str.lower` (ASCII model; theme ids and city names in scope are ASCII). -/
def pyLower (l : List Char) : List Char := l.map Char.toLower

/-- Python `str.upper` (ASCII model). -/
def pyUpper (l : List Char) : List Char := l.map Char.toUpper

/-- Decimal digit characters of a natural number (empty for zero); the first
argument is recursion fuel, always called with fuel ≥ number. -/
def natDigitsGo : Nat → Nat → List Char
  | 0, _ => []
  | _ + 1, 0 => []
  | fuel + 1, n + 1 => natDigitsGo fuel ((n + 1) / 10) ++ [Nat.digitChar ((n + 1) % 10)]

/-- Decimal string of a natural number. -/
def natStr (n : Nat) : String := if n = 0 then "0" else ⟨natDigitsGo n n⟩

/-- Left-pad a string with zeros to the given width. -/
def padZeros (w : Nat) (s : String) : String :=
  ⟨List.replicate (w - s.data.length) '0' ++ s.data⟩

/-! ### Theme record (the color dictionary loaded from a theme JSON file) -/

/-- A fully-loaded theme record: the keys the renderer reads from the theme
dictionary. -/
structure Theme where
  bg : String
  text : String
  water : String
  parks : String
  gradient_color : String
  road_motorway : String
  road_primary : String
  road_secondary : String
  road_tertiary : String
  road_residential : String
  road_default : String
deriving DecidableEq

/-! ### Road styling (renderer.py, get_edge_colors_by_type / get_edge_widths_by_type) -/

/-- The value stored under the `highway` key of an edge attribute dictionary:
absent, a single tag, or a list of tags. -/
inductive HighwayAttr where
  | absent
  | tag (s : String)
  | tags (l : List String)
deriving DecidableEq

/-- Models `data.get(highway_key, unclassified)` followed by
`if isinstance(highway, list): highway = highway[0] if highway else unclassified`. -/
def normalizeHighway : HighwayAttr → String
  | .absent => "unclassified"
  | .tag s => s
  | .tags [] => "unclassified"
  | .tags (s :: _) => s

/-- A road edge of the fetched graph, carrying its `highway` attribute. -/
structure Edge where
  highway : HighwayAttr
deriving DecidableEq

/-- The per-edge color chain of `get_edge_colors_by_type`. -/
def edgeColorFor (theme : Theme) (highway : String) : String :=
  if highway ∈ ["motorway", "motorway_link"] then theme.road_motorway
  else if highway ∈ ["trunk", "trunk_link", "primary", "primary_link"] then theme.road_primary
  else if highway ∈ ["secondary", "secondary_link"] then theme.road_secondary
  else if highway ∈ ["tertiary", "tertiary_link"] then theme.road_tertiary
  else if highway ∈ ["residential", "living_street", "unclassified"] then theme.road_residential
  else theme.road_default

/-- renderer.get_edge_colors_by_type: one color per edge of the graph. -/
def get_edge_colors_by_type (G : List Edge) (theme : Theme) : List String :=
  G.map fun e => edgeColorFor theme (normalizeHighway e.highway)

/-- The per-edge width chain of `get_edge_widths_by_type`. -/
def edgeWidthFor (highway : String) : ℚ :=
  if highway ∈ ["motorway", "motorway_link"] then 1.2
  else if highway ∈ ["trunk", "trunk_link", "primary", "primary_link"] then 1.0
  else if highway ∈ ["secondary", "secondary_link"] then 0.8
  else if highway ∈ ["tertiary", "tertiary_link"] then 0.6
  else 0.4

/-- renderer.get_edge_widths_by_type: one stroke width per edge of the graph. -/
def get_edge_widths_by_type (G : List Edge) : List ℚ :=
  G.map fun e => edgeWidthFor (normalizeHighway e.highway)

/-! Specification-side styling table (spec section 4.3), stated independently of
the implementation chains so that the two can be compared. -/

/-- Road classes of the specification precedence table. -/
inductive RoadClass where
  | motorwayClass
  | primaryClass
  | secondaryClass
  | tertiaryClass
  | residentialClass
  | defaultClass
deriving DecidableEq

/-- Modelled from the spec: the precedence table assigning a road class to a tag. -/
def specRoadClass (highway : String) : RoadClass :=
  if highway ∈ ["motorway", "motorway_link"] then .motorwayClass
  else if highway ∈ ["trunk", "trunk_link", "primary", "primary_link"] then .primaryClass
  else if highway ∈ ["secondary", "secondary_link"] then .secondaryClass
  else if highway ∈ ["tertiary", "tertiary_link"] then .tertiaryClass
  else if highway ∈ ["residential", "living_street", "unclassified"] then .residentialClass
  else .defaultClass

/-- Modelled from the spec: the theme color assigned to each road class. -/
def specClassColor (theme : Theme) : RoadClass → String
  | .motorwayClass => theme.road_motorway
  | .primaryClass => theme.road_primary
  | .secondaryClass => theme.road_secondary
  | .tertiaryClass => theme.road_tertiary
  | .residentialClass => theme.road_residential
  | .defaultClass => theme.road_default

/-- Modelled from the spec: the fixed width assigned to each road class
(motorway 1.2, primary 1.0, secondary 0.8, tertiary 0.6, any other 0.4). -/
def specClassWidth : RoadClass → ℚ
  | .motorwayClass => 1.2
  | .primaryClass => 1.0
  | .secondaryClass => 0.8
  | .tertiaryClass => 0.6
  | .residentialClass => 0.4
  | .defaultClass => 0.4

/-! ### Python exceptions and the geocoder adapter (renderer.get_coordinates) -/

/-- A Python exception as observed by the route handler: either a `ValueError`
(caught by the first except clause) or any other exception type. -/
inductive PyErr where
  | valueError (msg : String)
  | otherError (msg : String)
deriving DecidableEq

/-- Observable effects of the geocoder adapter. -/
inductive GeoStep where
  | sleep (seconds : ℚ)
  | geocodeQuery (q : String)
deriving DecidableEq

/-- renderer.get_coordinates: sleeps one second, issues a single geocode lookup
for the string `city ++ ", " ++ country`, then returns the coordinate pair when
the service found a match and raises `ValueError` otherwise.  The outcome of the
external service is passed in as `serviceResult`. -/
def get_coordinates (city country : String) (serviceResult : Option (ℚ × ℚ)) :
    List GeoStep × Except PyErr (ℚ × ℚ) :=
  ([GeoStep.sleep 1, GeoStep.geocodeQuery (city ++ ", " ++ country)],
    match serviceResult with
    | some loc => .ok loc
    | none =>
      .error (.valueError ("Could not find coordinates for " ++ city ++ ", " ++ country)))

/-! ### Fixed-point decimal formatting (the f-string `{x:.4f}` of the caption) -/

/-- Models Python `{x:.4f}` formatting on the exact rational magnitude: optional
sign, decimal integer digits, a dot, four fraction digits.  Ties are rounded as
by `round`; the properties proved below do not depend on tie-breaking. -/
def fmtFixed4 (x : ℚ) : String :=
  let n : Nat := (round (|x| * 10000) : ℤ).toNat
  (if x < 0 then "-" else "") ++ natStr (n / 10000) ++ "." ++ padZeros 4 (natStr (n % 10000))

/-- The decimal digit characters. -/
def digitChars : List Char := ['0', '1', '2', '3', '4', '5', '6', '7', '8', '9']

/-- The coordinate string before hemisphere rewriting:
`{lat:.4f}° N / {lon:.4f}° E` when `lat ≥ 0`, else `{abs lat:.4f}° S / {lon:.4f}° E`. -/
def coordsBase (lat lon : ℚ) : String :=
  if 0 ≤ lat then fmtFixed4 lat ++ "° N / " ++ fmtFixed4 lon ++ "° E"
  else fmtFixed4 |lat| ++ "° S / " ++ fmtFixed4 lon ++ "° E"

/-- The coordinate caption of the map pane: the base string, with every `E`
replaced by `W` when `lon < 0`. -/
def coordsCaption (lat lon : ℚ) : String :=
  if lon < 0 then ⟨pyReplaceChar 'E' 'W' (coordsBase lat lon).data⟩ else coordsBase lat lon

/-! ### Drawing operations emitted by the two pane renderers -/

/-- Drawing operations issued against a matplotlib axis, in order. -/
inductive RenderOp where
  | setFacecolor (color : String)
  | axisOff
  | plotLayer (kind : String) (facecolor : String)
  | plotRoads (edgeColors : List String) (edgeWidths : List ℚ)
  | gradientFade (color : String) (location : String)
  | drawText (x y : ℚ) (content : String)
  | drawLine (x1 x2 y1 y2 : ℚ)
  | drawStampRect
  | drawStampLabel
deriving DecidableEq

/-- The letter-spaced upper-case city name (`"  ".join(list(city.upper()))`). -/
def spacedCity (city : String) : String :=
  String.intercalate "  " ((pyUpper city.data).map fun c => String.singleton c)

/-- Outcomes of the external map-data fetches performed by render_map_side:
the road-network fetch (keyed by the network type actually requested) and the
water and park polygon-layer fetches. -/
structure MapFetchEnv where
  graph : String → Except PyErr (List Edge)
  water : Except PyErr (List Unit)
  parks : Except PyErr (List Unit)

/-- renderer.render_map_side.  The road-network fetch is not guarded: its
exception propagates as the `Except.error` result.  In non-fast mode the water
and parks fetches are each wrapped in a bare try/except, a failure leaving the
layer absent; an absent or empty layer is not plotted.  On success the emitted
drawing operations are returned in order. -/
def render_map_side (city country : String) (point : ℚ × ℚ) (theme : Theme)
    (env : MapFetchEnv) (fast : Bool) : Except PyErr (List RenderOp) :=
  let networkType := if fast then "drive" else "all"
  match env.graph networkType with
  | .error e => .error e
  | .ok G =>
    let water : Option (List Unit) := if fast then none else env.water.toOption
    let parks : Option (List Unit) := if fast then none else env.parks.toOption
    .ok
      ([RenderOp.setFacecolor theme.bg]
        ++ (match water with
            | some w => if ¬ w = [] then [RenderOp.plotLayer "water" theme.water] else []
            | none => [])
        ++ (match parks with
            | some p => if ¬ p = [] then [RenderOp.plotLayer "parks" theme.parks] else []
            | none => [])
        ++ [RenderOp.plotRoads (get_edge_colors_by_type G theme) (get_edge_widths_by_type G),
            RenderOp.gradientFade theme.gradient_color "bottom",
            RenderOp.gradientFade theme.gradient_color "top",
            RenderOp.drawText 0.5 0.12 (spacedCity city),
            RenderOp.drawText 0.5 0.08 ⟨pyUpper country.data⟩,
            RenderOp.drawText 0.5 0.05 (coordsCaption point.1 point.2),
            RenderOp.drawLine 0.3 0.7 0.10 0.10,
            RenderOp.axisOff])

/-! ### CPython textwrap, with the default TextWrapper options used by the renderer

The renderer calls `textwrap.wrap(paragraph, width=35)`, i.e. a TextWrapper with
the default options: expand_tabs (tabsize 8), replace_whitespace, drop_whitespace,
break_long_words, break_on_hyphens all true; fix_sentence_endings false; no
indents; max_lines None (so the truncation branch of `_wrap_chunks` is absent).
The word-class characters of the chunking regex are modelled over ASCII. -/

/-- Python `str.expandtabs(tabsize)`: each tab becomes spaces up to the next
multiple of `tabsize` of the running column, which is reset by LF and CR. -/
def expandTabsGo (tabsize : Nat) : List Char → Nat → List Char
  | [], _ => []
  | c :: rest, col =>
    if c = tabC then
      let incr := tabsize - col % tabsize
      List.replicate incr ' ' ++ expandTabsGo tabsize rest (col + incr)
    else if c = lfC ∨ c = crC then c :: expandTabsGo tabsize rest 0
    else c :: expandTabsGo tabsize rest (col + 1)

/-- The `unicode_whitespace_trans` translation: the five non-space ASCII
whitespace characters become a space. -/
def translateWsToSpace (l : List Char) : List Char :=
  l.map fun c => if c = tabC ∨ c = lfC ∨ c = vtC ∨ c = ffC ∨ c = crC then ' ' else c

/-- TextWrapper._munge_whitespace with the default options. -/
def mungeWhitespace (l : List Char) : List Char :=
  translateWsToSpace (expandTabsGo 8 l 0)

/-- The regex class `\w` (ASCII model): alphanumeric or underscore. -/
def wordChar (c : Char) : Bool := c.isAlphanum || c = '_'

/-- The regex class `[^\d\W]` (a word character that is not a digit). -/
def letterChar (c : Char) : Bool := c.isAlpha || c = '_'

/-- The `word_punct` class of the chunking regex. -/
def wordPunctChar (c : Char) : Bool :=
  wordChar c || ['!', '"', apos, '&', '.', ',', '?'].contains c

/-- Whether position `i` of `t` holds a character satisfying `p`. -/
def testAt (p : Char → Bool) (t : List Char) (i : Nat) : Bool :=
  match t.get? i with
  | some c => p c
  | none => false

/-- Length of the run of hyphens starting at position `i`. -/
def hyphenRunLen (t : List Char) (i : Nat) : Nat :=
  ((t.drop i).takeWhile fun c => c = '-').length

/-- Length of the run of ASCII whitespace starting at position `i`. -/
def wsRunLen (t : List Char) (i : Nat) : Nat :=
  ((t.drop i).takeWhile isAsciiWs).length

/-- The top-level em-dash alternative of the chunking regex,
`(?<=word_punct)-{2,}(?=\w)`, tried at position `i`; yields the match end. -/
def emDashRun (t : List Char) (i : Nat) : Option Nat :=
  let r := hyphenRunLen t i
  if 1 ≤ i ∧ testAt wordPunctChar t (i - 1) ∧ 2 ≤ r ∧ testAt wordChar t (i + r)
  then some (i + r) else none

/-- The zero-width word-chunk terminator `(?<=word_punct)(?=-{2,}\w)` at `j`. -/
def emDashStop (t : List Char) (j : Nat) : Bool :=
  decide (1 ≤ j) && testAt wordPunctChar t (j - 1)
    && decide (2 ≤ hyphenRunLen t j) && testAt wordChar t (j + hyphenRunLen t j)

/-- The hyphenated-word break of the chunking regex, making a word chunk end just
after a hyphen at `j - 1`: the lookbehind requires letter,letter,hyphen or
letter,hyphen,letter,hyphen before `j`, and the lookahead requires
letter, optional hyphen, letter from `j`. -/
def hyphenStop (t : List Char) (j : Nat) : Bool :=
  (decide (t.get? (j - 1) = some '-'))
    && ((decide (3 ≤ j) && testAt letterChar t (j - 3) && testAt letterChar t (j - 2))
        || (decide (4 ≤ j) && testAt letterChar t (j - 4)
            && decide (t.get? (j - 3) = some '-') && testAt letterChar t (j - 2)))
    && (testAt letterChar t j
        && (testAt letterChar t (j + 1)
            || (decide (t.get? (j + 1) = some '-') && testAt letterChar t (j + 2))))

/-- Whether a word chunk that started at `i` ends (exclusively) at `j`: end of
text, whitespace ahead, an em-dash stop, or (if at least one character was
consumed before the hyphen) a hyphenated-word stop. -/
def stopAt (t : List Char) (i j : Nat) : Bool :=
  decide (t.length ≤ j)
    || (match t.get? j with | some c => isAsciiWs c | none => true)
    || emDashStop t j
    || (decide (i + 2 ≤ j) && hyphenStop t j)

/-- Scan for the first stop position of a word chunk, starting at `j`. -/
def wordEndGo (t : List Char) (i : Nat) : Nat → Nat → Nat
  | 0, j => j
  | fuel + 1, j => if stopAt t i j then j else wordEndGo t i fuel (j + 1)

/-- End of the lazily-matched word chunk starting at `i`. -/
def wordEnd (t : List Char) (i : Nat) : Nat := wordEndGo t i t.length (i + 1)

/-- End (exclusive) of the chunk-regex match starting at position `i < t.length`:
a maximal whitespace run, an em-dash run, or a word chunk. -/
def matchEnd (t : List Char) (i : Nat) : Nat :=
  match t.get? i with
  | none => i
  | some c =>
    if isAsciiWs c then i + wsRunLen t i
    else
      match emDashRun t i with
      | some j => j
      | none => wordEnd t i

/-- TextWrapper._split: the successive chunk-regex matches partition the text. -/
def splitChunksGo (t : List Char) : Nat → Nat → List (List Char)
  | 0, _ => []
  | fuel + 1, i =>
    if t.length ≤ i then []
    else ((t.drop i).take (matchEnd t i - i)) :: splitChunksGo t fuel (matchEnd t i)

/-- TextWrapper._split of a munged text. -/
def splitChunks (t : List Char) : List (List Char) := splitChunksGo t t.length 0

/-- The Python test `chunk.strip() == ''` applied to a chunk. -/
def chunkBlank (c : List Char) : Bool := pyIsBlank c

/-- Total character count of a list of chunks. -/
def sumLen (l : List (List Char)) : Nat := (l.map List.length).sum

/-- The inner packing loop of `_wrap_chunks`: move chunks to the current line
while the running length stays within the width; returns the packed prefix and
the remaining stack. -/
def packChunks (width : Nat) : Nat → List (List Char) → List (List Char) × List (List Char)
  | _, [] => ([], [])
  | curLen, c :: rest =>
    if curLen + c.length ≤ width then
      let pr := packChunks width (curLen + c.length) rest
      (c :: pr.1, pr.2)
    else ([], c :: rest)

/-- Python `chunk.rfind(hyphen, 0, k)`: index of the last hyphen among the first
`k` characters, if any. -/
def lastHyphenBefore (chunk : List Char) (k : Nat) : Option Nat :=
  match (chunk.take k).reverse.findIdx? fun c => c = '-' with
  | some r => some ((chunk.take k).length - 1 - r)
  | none => none

/-- TextWrapper._handle_long_word with the default options (break_long_words and
break_on_hyphens true): split the over-long chunk, preferring a break just after
the last hyphen that fits and is preceded by a non-hyphen.  Returns the piece
appended to the current line and the remainder pushed back on the stack. -/
def handleLongWord (width curLen : Nat) (chunk : List Char) : List Char × List Char :=
  let spaceLeft := if width < 1 then 1 else width - curLen
  let endIdx :=
    if spaceLeft < chunk.length then
      match lastHyphenBefore chunk spaceLeft with
      | some h =>
        if 0 < h ∧ (chunk.take h).any fun c => ¬ c = '-' then h + 1 else spaceLeft
      | none => spaceLeft
    else spaceLeft
  (chunk.take endIdx, chunk.drop endIdx)

/-- The trailing-whitespace drop of `_wrap_chunks`: remove the final chunk of
the line when it strips to nothing. -/
def chopTrailing (L : List (List Char)) : List (List Char) :=
  if ¬ L = [] ∧ chunkBlank (L.getLastD []) then L.dropLast else L

/-- The packing core of one `_wrap_chunks` iteration, independent of the
accumulated lines: greedily pack, split an over-long head chunk, drop a
trailing whitespace chunk from the line.  Returns the chunks of the current
line and the remaining stack. -/
def wrapCore (width : Nat) (stack1 : List (List Char)) :
    List (List Char) × List (List Char) :=
  let packed := packChunks width 0 stack1
  let afterLong : List (List Char) × List (List Char) :=
    match packed.2 with
    | [] => packed
    | c :: rt =>
      if width < c.length then
        let hl := handleLongWord width (sumLen packed.1) c
        (packed.1 ++ [hl.1], hl.2 :: rt)
      else packed
  (chopTrailing afterLong.1, afterLong.2)

/-- One outer iteration of `_wrap_chunks` on a nonempty stack `c0 :: rest0`:
optionally drop a leading whitespace chunk (only once lines exist), then run
the packing core and emit the line if nonempty.  Returns the remaining stack
and the accumulated lines (in reverse). -/
def wrapStep (width : Nat) (c0 : List Char) (rest0 lines : List (List Char)) :
    List (List Char) × List (List Char) :=
  let stack1 := if chunkBlank c0 ∧ ¬ lines = [] then rest0 else c0 :: rest0
  let core := wrapCore width stack1
  (core.2, if ¬ core.1 = [] then core.1.flatten :: lines else lines)

/-- The outer loop of `_wrap_chunks`: one `wrapStep` per fuel unit until the
stack empties. -/
def wrapChunksGo (width : Nat) : Nat → List (List Char) → List (List Char) → List (List Char)
  | 0, _, lines => lines.reverse
  | _ + 1, [], lines => lines.reverse
  | fuel + 1, c0 :: rest0, lines =>
    wrapChunksGo width fuel (wrapStep width c0 rest0 lines).1 (wrapStep width c0 rest0 lines).2

/-- TextWrapper._wrap_chunks with the default options, started with enough fuel
for the loop to run to completion. -/
def wrap_chunks (width : Nat) (chunks : List (List Char)) : List (List Char) :=
  wrapChunksGo width (sumLen chunks + chunks.length + 1) chunks []

/-- `textwrap.wrap(text, width)` with the default TextWrapper options. -/
def textwrap_wrap (width : Nat) (text : String) : List String :=
  (wrap_chunks width (splitChunks (mungeWhitespace text.data))).map fun l => ⟨l⟩

/-! ### Message pane (renderer.render_message_side) -/

/-- The paragraphs of the message: `message.split` on newline. -/
def paragraphsOf (message : String) : List (List Char) :=
  splitOnChar lfC message.data

/-- The word-wrap loop of render_message_side: each paragraph with visible
content is wrapped at width 35; a paragraph that strips to nothing contributes a
single empty line. -/
def wrapped_lines_of (message : String) : List String :=
  (paragraphsOf message).flatMap fun p =>
    if ¬ pyIsBlank p then textwrap_wrap 35 ⟨p⟩ else [""]

/-- The attribution string of the message pane. -/
def attributionText : String := "© OpenStreetMap contributors"

/-- renderer.render_message_side: sets the background and hides the axis; then,
only when the message has visible content, draws the wrapped message text, the
decorative stamp rectangle and label, the four address rule lines and the
attribution. -/
def render_message_side (message : String) (theme : Theme) : List RenderOp :=
  [RenderOp.setFacecolor theme.bg, RenderOp.axisOff]
    ++ (if pyIsBlank message.data then []
        else
          [RenderOp.drawText 0.1 0.85 (joinNl (wrapped_lines_of message)),
           RenderOp.drawStampRect, RenderOp.drawStampLabel]
          ++ ([(0.4 : ℚ), 0.32, 0.24, 0.16].map fun y => RenderOp.drawLine 0.1 0.9 y y)
          ++ [RenderOp.drawText 0.9 0.03 attributionText])

/-! ### Postcard compositor (renderer.create_postcard) -/

/-- The composed postcard: the drawing operations of both panes, the divider,
and the raster resolution chosen by the speed mode. -/
structure Postcard where
  mapOps : List RenderOp
  messageOps : List RenderOp
  dpi : Nat
deriving DecidableEq

/-- renderer.create_postcard: renders the map pane (exceptions propagate) and the
message pane, then flattens at 150 dpi in fast mode and 300 dpi otherwise. -/
def create_postcard (city country : String) (point : ℚ × ℚ) (theme : Theme)
    (message : String) (fast : Bool) (env : MapFetchEnv) : Except PyErr Postcard :=
  match render_map_side city country point theme env fast with
  | .error e => .error e
  | .ok mapOps =>
    .ok { mapOps := mapOps,
          messageOps := render_message_side message theme,
          dpi := if fast then 150 else 300 }

/-! ### Routes (routes.py) -/

/-- The request body of POST /api/generate, with its declared defaults. -/
structure PostcardRequest where
  city : String
  country : String
  theme : String := "warm_beige"
  distance : Int := 8000
  message : String := ""
  fast : Bool := true

/-- A wall-clock timestamp at second resolution, as read by `datetime.now()`. -/
structure Timestamp where
  year : Nat
  month : Nat
  day : Nat
  hour : Nat
  minute : Nat
  second : Nat
deriving DecidableEq

/-- `datetime.strftime` of the fixed pattern `%Y%m%d_%H%M%S`. -/
def strftimeYmdHMS (t : Timestamp) : String :=
  padZeros 4 (natStr t.year) ++ padZeros 2 (natStr t.month) ++ padZeros 2 (natStr t.day)
    ++ "_" ++ padZeros 2 (natStr t.hour) ++ padZeros 2 (natStr t.minute)
    ++ padZeros 2 (natStr t.second)

/-- The city slug: `city.lower().replace(space, underscore).replace(apostrophe, "")`. -/
def city_slug (city : String) : String :=
  ⟨pyRemoveChar apos (pyReplaceChar ' ' '_' (pyLower city.data))⟩

/-- The output filename assembled by the generation endpoint. -/
def postcardFilename (city theme : String) (now : Timestamp) : String :=
  city_slug city ++ "_" ++ theme ++ "_" ++ strftimeYmdHMS now ++ ".png"

/-- The responses the generation endpoint can produce: a success payload, an
HTTPException with status and detail, or an exception that escapes the handler
uncaught (raised outside the guarded block). -/
inductive ApiResponse where
  | success (filename url : String)
  | httpError (status : Nat) (detail : String)
  | uncaught (msg : String)
deriving DecidableEq

/-- The single-quote string used in the unknown-theme detail message. -/
def sq : String := String.singleton apos

/-- The outcomes of every external effect touched by one generation request:
whether the theme file exists and what loading it yields (loading happens
outside the guarded block), the geocoding service outcome, the map fetches, the
outcome of the file write, and the current wall-clock time. -/
structure GenerateEnv where
  themeFile : Option (Except String Theme)
  geoService : Option (ℚ × ℚ)
  mapFetch : MapFetchEnv
  writeFile : Except PyErr Unit
  now : Timestamp

/-- routes.generate_postcard: 400 when the theme file does not exist (detail
naming the theme); the theme JSON is loaded outside the try block, so a parse
failure escapes uncaught; inside the guarded block geocoding, postcard creation
and the file write run in sequence, a `ValueError` maps to 400 with its own
message and any other exception maps to 500 with the fixed wrapping prefix. -/
def generate_postcard (req : PostcardRequest) (env : GenerateEnv) : ApiResponse :=
  match env.themeFile with
  | none => .httpError 400 ("Theme " ++ sq ++ req.theme ++ sq ++ " not found")
  | some (.error e) => .uncaught e
  | some (.ok theme) =>
    let result : Except PyErr String := do
      let coords ← (get_coordinates req.city req.country env.geoService).2
      let _ ← create_postcard req.city req.country coords theme req.message req.fast env.mapFetch
      let _ ← env.writeFile
      pure (postcardFilename req.city req.theme env.now)
    match result with
    | .ok filename => .success filename ("/static/postcards/" ++ filename)
    | .error (.valueError m) => .httpError 400 m
    | .error (.otherError m) => .httpError 500 ("Failed to generate postcard: " ++ m)

/-! ### Theme listing (routes.list_themes) -/

/-- The raw fields of one theme JSON file that the listing reads (each possibly
absent). -/
structure ThemeRecord where
  name : Option String := none
  description : Option String := none
  bg : Option String := none
  text : Option String := none
  water : Option String := none
  parks : Option String := none
  road_primary : Option String := none
deriving DecidableEq

/-- One entry of the listing response, with the defaulted color subset. -/
structure ThemeSummary where
  id : String
  name : String
  description : String
  bg : String
  text : String
  water : String
  parks : String
  road_primary : String
deriving DecidableEq

/-- String suffix test (structural; Python `str.endswith`). -/
def strEndsWith (s t : String) : Bool := t.data.isSuffixOf s.data

/-- Python `Path.stem` for the filenames matched by the glob: the name without
its final `.json` suffix (a bare `.json` has no suffix and is its own stem). -/
def pyStem (filename : String) : String :=
  if strEndsWith filename ".json" ∧ ¬ filename = ".json" then
    ⟨filename.data.take (filename.data.length - 5)⟩
  else filename

/-- The summary built from one parsed record, with the per-field defaults of the
listing. -/
def summarize (stem : String) (d : ThemeRecord) : ThemeSummary :=
  { id := stem
    name := d.name.getD stem
    description := d.description.getD ""
    bg := d.bg.getD "#FFFFFF"
    text := d.text.getD "#000000"
    water := d.water.getD "#C0C0C0"
    parks := d.parks.getD "#F0F0F0"
    road_primary := d.road_primary.getD "#333333" }

/-- Python string comparison: lexicographic on code points. -/
def charListLE : List Char → List Char → Bool
  | [], _ => true
  | _ :: _, [] => false
  | a :: as, b :: bs =>
    if a.toNat < b.toNat then true
    else if b.toNat < a.toNat then false
    else charListLE as bs

/-- The filename order used by `sorted` over the glob results (paths sharing the
directory compare by filename, code point by code point). -/
def fileLE (a b : String × Except String ThemeRecord) : Prop :=
  charListLE a.1.data b.1.data = true

instance : DecidableRel fileLE := fun a b =>
  inferInstanceAs (Decidable (charListLE a.1.data b.1.data = true))

/-- routes.list_themes.  The directory state is `none` when the themes directory
does not exist, else the directory entries with each file's parse outcome
(directory listings carry pairwise-distinct filenames).  The glob keeps the
`.json` files, `sorted` orders them by filename, and the loop keeps a summary
per parseable record, skipping records whose load raises. -/
def list_themes (dir : Option (List (String × Except String ThemeRecord))) :
    List ThemeSummary :=
  match dir with
  | none => []
  | some files =>
    ((files.filter fun f => strEndsWith f.1 ".json").insertionSort fileLE).filterMap fun f =>
      match f.2 with
      | .error _ => none
      | .ok d => some (summarize (pyStem f.1) d)

/-- The summary of a directory entry known to hold a parseable record (the
error branch is dead at every use site). -/
def okSummarize (f : String × Except String ThemeRecord) : ThemeSummary :=
  match f.2 with
  | .ok d => summarize (pyStem f.1) d
  | .error _ => summarize (pyStem f.1) {}

/-! Character predicates used by the word-wrap analysis. -/

/-- A character whose only possible whitespace reading is the plain space:
every munged, well-behaved text consists of such characters. -/
def spaceOnly (c : Char) : Prop := isPySpace c = true → c = ' '

/-- A character is tame when Unicode whitespace implies ASCII whitespace; a
message containing only tame characters avoids the exotic-whitespace behavior
of `str.strip`. -/
def tameChar (c : Char) : Prop := isPySpace c = true → isAsciiWs c = true

instance decSpaceOnly (c : Char) : Decidable (spaceOnly c) :=
  inferInstanceAs (Decidable (isPySpace c = true → c = ' '))

instance decTameChar (c : Char) : Decidable (tameChar c) :=
  inferInstanceAs (Decidable (isPySpace c = true → isAsciiWs c = true))

/-- A chunk consisting entirely of plain spaces. -/
def BlankChunk (c : List Char) : Prop := ∀ x ∈ c, x = ' '

/-- Invariant for a single chunk on the wrap stack of a space-only text:
nonempty, space-only characters, and either all whitespace or whitespace-free
of length at most 35. -/
def ChunkOK (c : List Char) : Prop :=
  c ≠ [] ∧ (∀ x ∈ c, spaceOnly x) ∧
    ((∀ x ∈ c, isAsciiWs x = true) ∨ ((∀ x ∈ c, isAsciiWs x = false) ∧ c.length ≤ 35))

/-- Adjacent chunks are never both whitespace. -/
def ChunkRel (a b : List Char) : Prop :=
  (∀ x ∈ a, isAsciiWs x = false) ∨ (∀ x ∈ b, isAsciiWs x = false)

/-- Invariant for the wrap stack. -/
def StackOK (s : List (List Char)) : Prop :=
  (∀ c ∈ s, ChunkOK c) ∧ List.Chain' ChunkRel s

/-- Invariant for an emitted wrap line: nonempty, within the width, space-only
characters, and not ending in whitespace. -/
def LineOK (l : List Char) : Prop :=
  l ≠ [] ∧ l.length ≤ 35 ∧ (∀ c ∈ l, spaceOnly c) ∧
    ∀ a, l.getLast? = some a → isAsciiWs a = false

/-! ### Concrete fixtures used by witnesses and counterexamples -/

/-- A representative fully-populated theme record. -/
def demoTheme : Theme :=
  { bg := "#EAE0D0", text := "#3B2F2F", water := "#A4C8D8", parks := "#B5C9A8",
    gradient_color := "#EAE0D0", road_motorway := "#8B5A2B", road_primary := "#A0522D",
    road_secondary := "#B8733F", road_tertiary := "#C98B55",
    road_residential := "#D9A876", road_default := "#E2BD8C" }

/-- A representative request body. -/
def demoReq : PostcardRequest :=
  { city := "Paris", country := "France", theme := "warm_beige", distance := 8000,
    message := "", fast := true }

/-- A map-fetch environment with a fixed road-network outcome and succeeding
empty polygon layers. -/
def demoMapFetch (g : Except PyErr (List Edge)) : MapFetchEnv :=
  { graph := fun _ => g, water := .ok [], parks := .ok [] }

/-- A fixed wall-clock reading. -/
def demoNow : Timestamp :=
  { year := 2026, month := 10, day := 12, hour := 9, minute := 5, second := 3 }

/-- A generation environment assembled from the pieces a scenario varies. -/
def demoEnv (tf : Option (Except String Theme)) (geo : Option (ℚ × ℚ))
    (g : Except PyErr (List Edge)) (wr : Except PyErr Unit) : GenerateEnv :=
  { themeFile := tf, geoService := geo, mapFetch := demoMapFetch g,
    writeFile := wr, now := demoNow }

/-- An independent formulation of the slug described by the specification:
lower-cased, apostrophes removed, then spaces replaced by underscores (the
implementation removes apostrophes last). -/
def specCitySlug (city : String) : String :=
  ⟨pyReplaceChar ' ' '_' (pyRemoveChar apos (pyLower city.data))⟩

/-- A representative two-paragraph message used to witness the word-wrap
idempotence statement. -/
def c6msg : String :=
  "Dear friend, greetings from afar!" ++ String.singleton lfC ++
    String.singleton lfC ++ "Wish you were here with us today."

/-- A message whose wrap output is not a fixed point of wrapping: the first
word fills a line exactly and the following chunk exceeds the width, so the
emitted first line keeps its trailing space. -/
def c6bad : String :=
  "aaaaaaaaaaaaaaaaaaaaaaaaaaaaaaaaaa bbbbbbbbbbbbbbbbbbbbbbbbbbbbbbbbbbbbbbbb"

/-! ### Theorems -/

/-- Auxiliary: the per-edge color chain agrees with the specification table. -/
lemma edgeColorFor_eq_spec (theme : Theme) (h : String) :
    edgeColorFor theme h = specClassColor theme (specRoadClass h) := by
  unfold edgeColorFor specRoadClass
  split_ifs <;> rfl

/-- Auxiliary: the per-edge width chain agrees with the specification table. -/
lemma edgeWidthFor_eq_spec (h : String) :
    edgeWidthFor h = specClassWidth (specRoadClass h) := by
  unfold edgeWidthFor specRoadClass
  split_ifs <;> rfl

/-- C1: for every road edge the styling is a pure function of the highway tag and
theme following the fixed precedence/width tables; a list-valued tag contributes
its first element, and an absent tag behaves as `unclassified`, receiving the
residential color and width 0.4. -/
theorem C1_edge_styling_follows_tables (theme : Theme) (G : List Edge) :
    get_edge_colors_by_type G theme
        = G.map (fun e => specClassColor theme (specRoadClass (normalizeHighway e.highway)))
      ∧ get_edge_widths_by_type G
        = G.map (fun e => specClassWidth (specRoadClass (normalizeHighway e.highway)))
      ∧ (∀ s rest, normalizeHighway (.tags (s :: rest)) = normalizeHighway (.tag s))
      ∧ normalizeHighway .absent = "unclassified"
      ∧ specRoadClass "unclassified" = .residentialClass
      ∧ edgeColorFor theme (normalizeHighway .absent) = theme.road_residential
      ∧ edgeWidthFor (normalizeHighway .absent) = 0.4 := by
  refine ⟨?_, ?_, ?_, rfl, by decide, rfl, rfl⟩
  · unfold get_edge_colors_by_type
    exact List.map_congr_left fun e _ => edgeColorFor_eq_spec theme _
  · unfold get_edge_widths_by_type
    exact List.map_congr_left fun e _ => edgeWidthFor_eq_spec _
  · intro s rest; rfl

/-- Auxiliary: bind on a successful Except. -/
lemma exceptBind_ok {α β ε : Type} (a : α) (f : α → Except ε β) :
    (Except.ok a >>= f) = f a := rfl

/-- Auxiliary: bind on a failed Except. -/
lemma exceptBind_error {α β ε : Type} (e : ε) (f : α → Except ε β) :
    ((Except.error e : Except ε α) >>= f) = .error e := rfl

/-- C2 counterexample: a `ValueError` raised by the map fetch inside the guarded
block (not an unknown theme and not a geocoding miss) is answered with 400 and
the raw message, not with the 500 wrapping the claim prescribes for any other
exception raised during generation. -/
theorem C2_counterexample :
    generate_postcard demoReq
        (demoEnv (some (.ok demoTheme)) (some (48.85, 2.35)) (.error (.valueError "boom")) (.ok ()))
      = .httpError 400 "boom"
    ∧ ¬ generate_postcard demoReq
        (demoEnv (some (.ok demoTheme)) (some (48.85, 2.35)) (.error (.valueError "boom")) (.ok ()))
      = .httpError 500 ("Failed to generate postcard: " ++ "boom") := by
  constructor
  · rfl
  · intro h
    have h400 : generate_postcard demoReq
        (demoEnv (some (.ok demoTheme)) (some (48.85, 2.35))
          (.error (.valueError "boom")) (.ok ()))
        = .httpError 400 "boom" := rfl
    rw [h400] at h
    injection h with hs hd
    omega

/-- C2 (amended): for POST /api/generate, a missing theme record yields 400 with
a detail naming the theme id; a geocoding miss yields 400; any *non-ValueError*
exception raised by the map fetch or the file write yields 500 with detail
exactly the fixed prefix plus the original message — whereas a `ValueError`
raised at those stages yields 400 with its own message instead. -/
theorem C2_error_mapping (req : PostcardRequest) (env : GenerateEnv) :
    (env.themeFile = none →
      generate_postcard req env
        = .httpError 400 ("Theme " ++ sq ++ req.theme ++ sq ++ " not found"))
    ∧ (∀ theme, env.themeFile = some (.ok theme) → env.geoService = none →
        generate_postcard req env
          = .httpError 400
              ("Could not find coordinates for " ++ req.city ++ ", " ++ req.country))
    ∧ (∀ theme c m, env.themeFile = some (.ok theme) → env.geoService = some c →
        env.mapFetch.graph (if req.fast then "drive" else "all") = .error (.otherError m) →
        generate_postcard req env
          = .httpError 500 ("Failed to generate postcard: " ++ m))
    ∧ (∀ theme c G m, env.themeFile = some (.ok theme) → env.geoService = some c →
        env.mapFetch.graph (if req.fast then "drive" else "all") = .ok G →
        env.writeFile = .error (.otherError m) →
        generate_postcard req env
          = .httpError 500 ("Failed to generate postcard: " ++ m))
    ∧ (∀ theme c m, env.themeFile = some (.ok theme) → env.geoService = some c →
        env.mapFetch.graph (if req.fast then "drive" else "all") = .error (.valueError m) →
        generate_postcard req env = .httpError 400 m) := by
  refine ⟨?_, ?_, ?_, ?_, ?_⟩
  · intro h
    simp [generate_postcard, h]
  · intro theme h hg
    simp [generate_postcard, h, get_coordinates, hg, exceptBind_error]
  · intro theme c m h hg hm
    simp [generate_postcard, h, get_coordinates, hg, exceptBind_ok, create_postcard,
      render_map_side, hm, exceptBind_error]
  · intro theme c G m h hg hm hw
    simp [generate_postcard, h, get_coordinates, hg, exceptBind_ok, create_postcard,
      render_map_side, hm, hw, exceptBind_error]
  · intro theme c m h hg hm
    simp [generate_postcard, h, get_coordinates, hg, exceptBind_ok, create_postcard,
      render_map_side, hm, exceptBind_error]

/-- C2 witness: the amended mapping applied at concrete environments covering the
unknown-theme, geocoding-miss and wrapped-500 branches. -/
theorem C2_error_mapping_witness :
    generate_postcard demoReq (demoEnv none (some (48.85, 2.35)) (.ok []) (.ok ()))
        = .httpError 400 ("Theme " ++ sq ++ "warm_beige" ++ sq ++ " not found")
    ∧ generate_postcard demoReq (demoEnv (some (.ok demoTheme)) none (.ok []) (.ok ()))
        = .httpError 400 ("Could not find coordinates for " ++ "Paris" ++ ", " ++ "France")
    ∧ generate_postcard demoReq
          (demoEnv (some (.ok demoTheme)) (some (48.85, 2.35))
            (.error (.otherError "connection reset")) (.ok ()))
        = .httpError 500 ("Failed to generate postcard: " ++ "connection reset") := by
  refine ⟨?_, ?_, ?_⟩
  · exact (C2_error_mapping demoReq _).1 rfl
  · exact (C2_error_mapping demoReq _).2.1 demoTheme rfl rfl
  · exact (C2_error_mapping demoReq _).2.2.1 demoTheme (48.85, 2.35) "connection reset" rfl rfl rfl

/-- C10: every `ValueError` raised inside the guarded generation block — by
geocoding, by the map fetch, or by the file write — is answered with 400 and the
exception's own message, and such requests are never answered with any 500
response. -/
theorem C10_valueerror_always_400 (req : PostcardRequest) (env : GenerateEnv) :
    (∀ theme, env.themeFile = some (.ok theme) → env.geoService = none →
      generate_postcard req env
          = .httpError 400
              ("Could not find coordinates for " ++ req.city ++ ", " ++ req.country)
        ∧ ∀ d, ¬ generate_postcard req env = .httpError 500 d)
    ∧ (∀ theme c m, env.themeFile = some (.ok theme) → env.geoService = some c →
        env.mapFetch.graph (if req.fast then "drive" else "all") = .error (.valueError m) →
        generate_postcard req env = .httpError 400 m
          ∧ ∀ d, ¬ generate_postcard req env = .httpError 500 d)
    ∧ (∀ theme c G m, env.themeFile = some (.ok theme) → env.geoService = some c →
        env.mapFetch.graph (if req.fast then "drive" else "all") = .ok G →
        env.writeFile = .error (.valueError m) →
        generate_postcard req env = .httpError 400 m
          ∧ ∀ d, ¬ generate_postcard req env = .httpError 500 d) := by
  have status_ne : ∀ (d₁ d₂ : String) (r : ApiResponse),
      r = .httpError 400 d₁ → r = .httpError 500 d₂ → False := by
    intro d₁ d₂ r h₁ h₂
    rw [h₁] at h₂
    injection h₂ with hs hd
    omega
  refine ⟨?_, ?_, ?_⟩
  · intro theme h hg
    have he : generate_postcard req env
        = .httpError 400 ("Could not find coordinates for " ++ req.city ++ ", " ++ req.country) := by
      simp [generate_postcard, h, get_coordinates, hg, exceptBind_error]
    exact ⟨he, fun d hc => status_ne _ d _ he hc⟩
  · intro theme c m h hg hm
    have he : generate_postcard req env = .httpError 400 m := by
      simp [generate_postcard, h, get_coordinates, hg, exceptBind_ok, create_postcard,
        render_map_side, hm, exceptBind_error]
    exact ⟨he, fun d hc => status_ne _ d _ he hc⟩
  · intro theme c G m h hg hm hw
    have he : generate_postcard req env = .httpError 400 m := by
      simp [generate_postcard, h, get_coordinates, hg, exceptBind_ok, create_postcard,
        render_map_side, hm, hw, exceptBind_error]
    exact ⟨he, fun d hc => status_ne _ d _ he hc⟩

/-- C10 witness: the three ValueError stages at concrete environments. -/
theorem C10_valueerror_always_400_witness :
    generate_postcard demoReq (demoEnv (some (.ok demoTheme)) none (.ok []) (.ok ()))
        = .httpError 400 ("Could not find coordinates for " ++ "Paris" ++ ", " ++ "France")
    ∧ generate_postcard demoReq
          (demoEnv (some (.ok demoTheme)) (some (48.85, 2.35))
            (.error (.valueError "bad polygon")) (.ok ()))
        = .httpError 400 "bad polygon"
    ∧ generate_postcard demoReq
          (demoEnv (some (.ok demoTheme)) (some (48.85, 2.35)) (.ok [])
            (.error (.valueError "disk quota")))
        = .httpError 400 "disk quota" := by
  refine ⟨?_, ?_, ?_⟩
  · exact ((C10_valueerror_always_400 demoReq _).1 demoTheme rfl rfl).1
  · exact ((C10_valueerror_always_400 demoReq _).2.1 demoTheme (48.85, 2.35) "bad polygon"
      rfl rfl rfl).1
  · exact ((C10_valueerror_always_400 demoReq _).2.2 demoTheme (48.85, 2.35) [] "disk quota"
      rfl rfl rfl rfl).1

/-- C4: in non-fast mode, a failure of the water or parks fetch is absorbed (the
renderer still succeeds, with or without those layers), while a failure of the
road-network fetch propagates out of the renderer unchanged. -/
theorem C4_layer_fetch_errors (city country : String) (point : ℚ × ℚ) (theme : Theme)
    (env : MapFetchEnv) :
    (∀ e, env.graph "all" = .error e →
      render_map_side city country point theme env false = .error e)
    ∧ (∀ G, env.graph "all" = .ok G →
        ∃ ops, render_map_side city country point theme env false = .ok ops) := by
  constructor
  · intro e h
    simp [render_map_side, h]
  · intro G h
    rcases he : render_map_side city country point theme env false with e | ops
    · exfalso
      simp [render_map_side, h] at he
    · exact ⟨ops, rfl⟩

/-- C4 witness: with failing water and parks fetches, rendering still succeeds
when the road fetch succeeds, and fails with the road fetch's error otherwise. -/
theorem C4_layer_fetch_errors_witness :
    (∃ ops, render_map_side "Paris" "France" (48.85, 2.35) demoTheme
        { graph := fun _ => .ok [], water := .error (.otherError "water down"),
          parks := .error (.otherError "parks down") } false = .ok ops)
    ∧ render_map_side "Paris" "France" (48.85, 2.35) demoTheme
        { graph := fun _ => .error (.otherError "overpass timeout"),
          water := .ok [()], parks := .ok [()] } false
      = .error (.otherError "overpass timeout") := by
  constructor
  · exact (C4_layer_fetch_errors "Paris" "France" (48.85, 2.35) demoTheme _).2 [] rfl
  · exact (C4_layer_fetch_errors "Paris" "France" (48.85, 2.35) demoTheme _).1
      (.otherError "overpass timeout") rfl

/-- C5: the geocoder adapter sleeps a fixed one second immediately before its
single lookup of `"city, country"`; it returns the coordinate pair exactly when
the service finds a match and raises the not-found `ValueError` naming city and
country otherwise; through the endpoint this surfaces as a 400 response. -/
theorem C5_geocoder_contract (city country : String) (svc : Option (ℚ × ℚ)) :
    (get_coordinates city country svc).1
        = [GeoStep.sleep 1, GeoStep.geocodeQuery (city ++ ", " ++ country)]
    ∧ (∀ c, svc = some c → (get_coordinates city country svc).2 = .ok c)
    ∧ (svc = none → (get_coordinates city country svc).2
        = .error (.valueError ("Could not find coordinates for " ++ city ++ ", " ++ country)))
    ∧ (∀ req env theme, req.city = city → req.country = country →
        env.themeFile = some (.ok theme) → env.geoService = none →
        generate_postcard req env
          = .httpError 400 ("Could not find coordinates for " ++ city ++ ", " ++ country)) := by
  refine ⟨rfl, ?_, ?_, ?_⟩
  · intro c h
    simp [get_coordinates, h]
  · intro h
    simp [get_coordinates, h]
  · intro req env theme hc hk h hg
    subst hc; subst hk
    simp [generate_postcard, h, get_coordinates, hg, exceptBind_error]

/-- C5 witness: the geocoder contract at a concrete miss and a concrete hit. -/
theorem C5_geocoder_contract_witness :
    (get_coordinates "Atlantis" "Nowhere" none).2
        = .error (.valueError ("Could not find coordinates for " ++ "Atlantis" ++ ", " ++ "Nowhere"))
    ∧ (get_coordinates "Paris" "France" (some (48.85, 2.35))).2 = .ok (48.85, 2.35)
    ∧ generate_postcard { demoReq with city := "Atlantis", country := "Nowhere" }
        (demoEnv (some (.ok demoTheme)) none (.ok []) (.ok ()))
      = .httpError 400 ("Could not find coordinates for " ++ "Atlantis" ++ ", " ++ "Nowhere") := by
  refine ⟨?_, ?_, ?_⟩
  · exact (C5_geocoder_contract "Atlantis" "Nowhere" none).2.2.1 rfl
  · exact (C5_geocoder_contract "Paris" "France" (some (48.85, 2.35))).2.1 (48.85, 2.35) rfl
  · exact (C5_geocoder_contract "Atlantis" "Nowhere" none).2.2.2
      { demoReq with city := "Atlantis", country := "Nowhere" } _ demoTheme rfl rfl rfl rfl

/-- Auxiliary: removing apostrophes commutes with the space-to-underscore
replacement. -/
lemma removeChar_replaceChar_comm (l : List Char) :
    pyRemoveChar apos (pyReplaceChar ' ' '_' l) = pyReplaceChar ' ' '_' (pyRemoveChar apos l) := by
  unfold pyRemoveChar pyReplaceChar
  induction l with
  | nil => rfl
  | cons c rest ih =>
    by_cases hc : c = ' '
    · subst hc
      simp only [List.map_cons, List.filter_cons]
      simpa [apos] using ih
    · by_cases ha : c = apos
      · subst ha
        simp only [List.map_cons, List.filter_cons]
        simpa [apos, hc] using ih
      · simp only [List.map_cons, List.filter_cons]
        simpa [hc, ha] using ih

/-- Auxiliary: the implemented slug equals the specification-ordered one. -/
lemma city_slug_eq_spec (city : String) : city_slug city = specCitySlug city := by
  unfold city_slug specCitySlug
  exact congrArg String.mk (removeChar_replaceChar_comm (pyLower city.data))

/-- C8: every successful generation responds with filename exactly
`{city_slug}_{theme}_{YYYYMMDD_HHMMSS}.png`, where the slug lower-cases the
city, replaces spaces by underscores and strips apostrophes, and the timestamp
is the wall clock at second resolution. -/
theorem C8_output_filename (req : PostcardRequest) (env : GenerateEnv) :
    (∀ theme c G, env.themeFile = some (.ok theme) → env.geoService = some c →
      env.mapFetch.graph (if req.fast then "drive" else "all") = .ok G →
      env.writeFile = .ok () →
      generate_postcard req env
        = .success (city_slug req.city ++ "_" ++ req.theme ++ "_" ++ strftimeYmdHMS env.now ++ ".png")
            ("/static/postcards/"
              ++ (city_slug req.city ++ "_" ++ req.theme ++ "_" ++ strftimeYmdHMS env.now ++ ".png")))
    ∧ city_slug req.city = specCitySlug req.city := by
  refine ⟨?_, city_slug_eq_spec req.city⟩
  intro theme c G h hg hm hw
  simp [generate_postcard, h, get_coordinates, hg, exceptBind_ok, create_postcard,
    render_map_side, hm, hw, postcardFilename]

/-- C8 witness: a concrete successful generation and its filename. -/
theorem C8_output_filename_witness :
    generate_postcard { demoReq with city := "New York" }
        (demoEnv (some (.ok demoTheme)) (some (40.71, -74.0)) (.ok []) (.ok ()))
      = .success "new_york_warm_beige_20261012_090503.png"
          "/static/postcards/new_york_warm_beige_20261012_090503.png" := by
  have h := (C8_output_filename { demoReq with city := "New York" }
      (demoEnv (some (.ok demoTheme)) (some (40.71, -74.0)) (.ok []) (.ok ()))).1
      demoTheme (40.71, -74.0) [] rfl rfl rfl rfl
  rw [h]
  rfl

/-- C3 counterexample: for the all-whitespace message the pane renders only the
background setup; contrary to the claim, the decorative stamp rectangle (and
with it the address rules and attribution) is not drawn. -/
theorem C3_counterexample :
    render_message_side "   " demoTheme = [RenderOp.setFacecolor demoTheme.bg, RenderOp.axisOff]
    ∧ ¬ RenderOp.drawStampRect ∈ render_message_side "   " demoTheme := by
  constructor
  · rfl
  · decide

/-- C3 (amended): for every message consisting only of whitespace (the empty
string included) the message pane draws no wrapped text and none of the
decoration elements either: only the background setup remains. -/
theorem C3_whitespace_message_blank_pane (m : String) (theme : Theme)
    (h : pyIsBlank m.data = true) :
    render_message_side m theme = [RenderOp.setFacecolor theme.bg, RenderOp.axisOff] := by
  simp [render_message_side, h]

/-- C3 witness: the amended statement at a concrete whitespace-only message. -/
theorem C3_whitespace_message_blank_pane_witness :
    pyIsBlank " \t ".data = true
    ∧ render_message_side " \t " demoTheme
        = [RenderOp.setFacecolor demoTheme.bg, RenderOp.axisOff] :=
  ⟨by decide, C3_whitespace_message_blank_pane " \t " demoTheme (by decide)⟩

/-- Auxiliary: the digit character of a value below ten is a decimal digit. -/
lemma digitChar_mem_digitChars (m : Nat) (h : m < 10) : Nat.digitChar m ∈ digitChars := by
  interval_cases m <;> decide

/-- Auxiliary: every character produced by natDigitsGo is a decimal digit. -/
lemma natDigitsGo_mem_digitChars (fuel : Nat) :
    ∀ n, ∀ c ∈ natDigitsGo fuel n, c ∈ digitChars := by
  induction fuel with
  | zero => intro n c hc; simp [natDigitsGo] at hc
  | succ f ih =>
    intro n c hc
    match n with
    | 0 => simp [natDigitsGo] at hc
    | m + 1 =>
      simp only [natDigitsGo, List.mem_append, List.mem_singleton] at hc
      rcases hc with h | h
      · exact ih _ c h
      · subst h
        exact digitChar_mem_digitChars _ (Nat.mod_lt _ (by omega))

/-- Auxiliary: every character of a decimal numeral is a decimal digit. -/
lemma natStr_mem_digitChars (n : Nat) : ∀ c ∈ (natStr n).data, c ∈ digitChars := by
  intro c hc
  unfold natStr at hc
  split at hc
  · have h0 : c = '0' := by simpa using hc
    subst h0; decide
  · exact natDigitsGo_mem_digitChars n n c hc

/-- Auxiliary: zero-padding adds only the digit zero. -/
lemma padZeros_mem (w : Nat) (s : String) :
    ∀ c ∈ (padZeros w s).data, c = '0' ∨ c ∈ s.data := by
  intro c hc
  unfold padZeros at hc
  simp only [List.mem_append] at hc
  rcases hc with h | h
  · exact Or.inl (List.eq_of_mem_replicate h)
  · exact Or.inr h

/-- Auxiliary: the character data of an appended string. -/
lemma stringData_append (s t : String) : (s ++ t).data = s.data ++ t.data := rfl

/-- Auxiliary: the fixed-point formatting of a rational uses only a sign, digits
and the decimal dot. -/
lemma fmtFixed4_chars (x : ℚ) :
    ∀ c ∈ (fmtFixed4 x).data, c ∈ '-' :: '.' :: digitChars := by
  intro c hc
  unfold fmtFixed4 at hc
  simp only [stringData_append, List.mem_append] at hc
  rcases hc with ((hs | hi) | hd) | hf
  · split at hs
    · simp only [List.mem_singleton] at hs
      simp [hs]
    · simp at hs
  · have := natStr_mem_digitChars _ c hi
    simp [this]
  · simp only [List.mem_singleton] at hd
    simp [hd]
  · rcases padZeros_mem 4 _ c hf with h0 | hn
    · subst h0; decide
    · have := natStr_mem_digitChars _ c hn
      simp [this]

/-- Auxiliary: the four overlay letters never occur in a formatted number. -/
lemma fmtFixed4_no_letter (x : ℚ) (c : Char)
    (hc : c = 'E' ∨ c = 'W' ∨ c = 'N' ∨ c = 'S') : ¬ c ∈ (fmtFixed4 x).data := by
  intro hmem
  have h := fmtFixed4_chars x c hmem
  rcases hc with h1 | h1 | h1 | h1 <;> subst h1 <;> revert h <;> decide

/-- Auxiliary: after the E-to-W rewriting, W occurs iff E or W occurred before. -/
lemma replaceE_mem_W (l : List Char) :
    'W' ∈ pyReplaceChar 'E' 'W' l ↔ ('E' ∈ l ∨ 'W' ∈ l) := by
  unfold pyReplaceChar
  simp only [List.mem_map]
  constructor
  · rintro ⟨a, ha, hfa⟩
    by_cases he : a = 'E'
    · exact Or.inl (he ▸ ha)
    · rw [if_neg he] at hfa
      exact Or.inr (hfa ▸ ha)
  · rintro (h | h)
    · exact ⟨'E', h, by simp⟩
    · exact ⟨'W', h, by simp⟩

/-- Auxiliary: after the E-to-W rewriting, no E remains. -/
lemma replaceE_not_mem_E (l : List Char) : ¬ 'E' ∈ pyReplaceChar 'E' 'W' l := by
  unfold pyReplaceChar
  simp only [List.mem_map]
  rintro ⟨a, _, hfa⟩
  by_cases he : a = 'E'
  · rw [if_pos he] at hfa
    exact absurd hfa (by decide)
  · rw [if_neg he] at hfa
    exact he hfa

/-- Auxiliary: the E-to-W rewriting leaves any other character's presence alone. -/
lemma replaceE_mem_other (c : Char) (hE : ¬ c = 'E') (hW : ¬ c = 'W') (l : List Char) :
    c ∈ pyReplaceChar 'E' 'W' l ↔ c ∈ l := by
  unfold pyReplaceChar
  simp only [List.mem_map]
  constructor
  · rintro ⟨a, ha, hfa⟩
    by_cases he : a = 'E'
    · rw [if_pos he] at hfa
      exact absurd hfa.symm hW
    · rw [if_neg he] at hfa
      exact hfa ▸ ha
  · intro h
    refine ⟨c, h, ?_⟩
    rw [if_neg hE]

/-- Auxiliary: the base caption always contains E (the initial longitude label). -/
lemma coordsBase_mem_E (lat lon : ℚ) : 'E' ∈ (coordsBase lat lon).data := by
  unfold coordsBase
  split <;>
    · simp only [stringData_append, List.mem_append]
      right
      decide

/-- Auxiliary: the base caption never contains W. -/
lemma coordsBase_not_mem_W (lat lon : ℚ) : ¬ 'W' ∈ (coordsBase lat lon).data := by
  unfold coordsBase
  split <;>
    · simp only [stringData_append, List.mem_append]
      rintro (((h | h) | h) | h)
      · exact fmtFixed4_no_letter _ 'W' (by simp) h
      · revert h; decide
      · exact fmtFixed4_no_letter _ 'W' (by simp) h
      · revert h; decide

/-- Auxiliary: the base caption contains N exactly when the latitude is
nonnegative. -/
lemma coordsBase_mem_N (lat lon : ℚ) : 'N' ∈ (coordsBase lat lon).data ↔ 0 ≤ lat := by
  unfold coordsBase
  split
  case isTrue h =>
    simp only [stringData_append, List.mem_append]
    constructor
    · intro _; exact h
    · intro _
      left; left; right; decide
  case isFalse h =>
    simp only [stringData_append, List.mem_append]
    constructor
    · rintro (((hm | hm) | hm) | hm)
      · exact absurd hm (fmtFixed4_no_letter _ 'N' (by simp))
      · exact absurd hm (by decide)
      · exact absurd hm (fmtFixed4_no_letter _ 'N' (by simp))
      · exact absurd hm (by decide)
    · intro hle; exact absurd hle h

/-- Auxiliary: the base caption contains S exactly when the latitude is negative. -/
lemma coordsBase_mem_S (lat lon : ℚ) : 'S' ∈ (coordsBase lat lon).data ↔ lat < 0 := by
  unfold coordsBase
  split
  case isTrue h =>
    simp only [stringData_append, List.mem_append]
    constructor
    · rintro (((hm | hm) | hm) | hm)
      · exact absurd hm (fmtFixed4_no_letter _ 'S' (by simp))
      · exact absurd hm (by decide)
      · exact absurd hm (fmtFixed4_no_letter _ 'S' (by simp))
      · exact absurd hm (by decide)
    · intro hlt; exact absurd h (not_le.mpr hlt)
  case isFalse h =>
    simp only [stringData_append, List.mem_append]
    constructor
    · intro _; exact not_le.mp h
    · intro _
      left; left; right; decide

/-- C7: in the coordinate caption, latitude is labeled N exactly when `lat ≥ 0`
and S exactly when `lat < 0`; the longitude label starts as E and every E is
rewritten to W exactly when `lon < 0`, so the caption shows W iff the longitude
is negative and E iff it is not. -/
theorem C7_coordinate_hemisphere_letters (lat lon : ℚ) :
    ('W' ∈ (coordsCaption lat lon).data ↔ lon < 0)
    ∧ ('E' ∈ (coordsCaption lat lon).data ↔ 0 ≤ lon)
    ∧ ('N' ∈ (coordsCaption lat lon).data ↔ 0 ≤ lat)
    ∧ ('S' ∈ (coordsCaption lat lon).data ↔ lat < 0) := by
  unfold coordsCaption
  by_cases hlon : lon < 0
  · rw [if_pos hlon]
    refine ⟨?_, ?_, ?_, ?_⟩
    · simp only [replaceE_mem_W]
      exact ⟨fun _ => hlon, fun _ => Or.inl (coordsBase_mem_E lat lon)⟩
    · constructor
      · intro h
        exact absurd h (replaceE_not_mem_E _)
      · intro h
        exact absurd h (not_le.mpr hlon)
    · rw [replaceE_mem_other 'N' (by decide) (by decide)]
      exact coordsBase_mem_N lat lon
    · rw [replaceE_mem_other 'S' (by decide) (by decide)]
      exact coordsBase_mem_S lat lon
  · rw [if_neg hlon]
    refine ⟨?_, ?_, coordsBase_mem_N lat lon, coordsBase_mem_S lat lon⟩
    · exact ⟨fun h => absurd h (coordsBase_not_mem_W lat lon), fun h => absurd h hlon⟩
    · exact ⟨fun _ => not_lt.mp hlon, fun _ => coordsBase_mem_E lat lon⟩

/-! Sorting auxiliaries for the theme listing. -/

/-- Auxiliary: the code-point order is total. -/
lemma charListLE_total : ∀ l1 l2 : List Char, charListLE l1 l2 = true ∨ charListLE l2 l1 = true := by
  intro l1
  induction l1 with
  | nil => intro l2; exact Or.inl rfl
  | cons a as ih =>
    intro l2
    cases l2 with
    | nil => exact Or.inr rfl
    | cons b bs =>
      simp only [charListLE]
      rcases Nat.lt_trichotomy a.toNat b.toNat with h | h | h
      · left; rw [if_pos h]
      · rw [if_neg (by omega), if_neg (by omega), if_neg (by omega), if_neg (by omega)]
        exact ih bs
      · right; rw [if_pos h]

/-- Auxiliary: the code-point order is transitive. -/
lemma charListLE_trans :
    ∀ l1 l2 l3 : List Char,
      charListLE l1 l2 = true → charListLE l2 l3 = true → charListLE l1 l3 = true := by
  intro l1
  induction l1 with
  | nil => intro l2 l3 _ _; rfl
  | cons a as ih =>
    intro l2 l3 h12 h23
    cases l2 with
    | nil => exact absurd h12 (by simp [charListLE])
    | cons b bs =>
      cases l3 with
      | nil => exact absurd h23 (by simp [charListLE])
      | cons c cs =>
        simp only [charListLE] at h12 h23 ⊢
        by_cases hab : a.toNat < b.toNat
        · by_cases hbc : b.toNat < c.toNat
          · rw [if_pos (by omega)]
          · rw [if_neg hbc] at h23
            by_cases hcb : c.toNat < b.toNat
            · rw [if_pos hcb] at h23; exact absurd h23 (by simp)
            · rw [if_pos (by omega)]
        · rw [if_neg hab] at h12
          by_cases hba : b.toNat < a.toNat
          · rw [if_pos hba] at h12; exact absurd h12 (by simp)
          · rw [if_neg hba] at h12
            by_cases hbc : b.toNat < c.toNat
            · rw [if_pos (by omega)]
            · rw [if_neg hbc] at h23
              by_cases hcb : c.toNat < b.toNat
              · rw [if_pos hcb] at h23; exact absurd h23 (by simp)
              · rw [if_neg hcb] at h23
                rw [if_neg (by omega), if_neg (by omega)]
                exact ih bs cs h12 h23

instance : IsTotal (String × Except String ThemeRecord) fileLE :=
  ⟨fun a b => charListLE_total a.1.data b.1.data⟩

instance : IsTrans (String × Except String ThemeRecord) fileLE :=
  ⟨fun _ _ _ hab hbc => charListLE_trans _ _ _ hab hbc⟩

/-- Auxiliary: inserting an element below every member of a list puts it in
front. -/
lemma orderedInsert_eq_cons (x : String × Except String ThemeRecord)
    (l : List (String × Except String ThemeRecord)) (h : ∀ z ∈ l, fileLE x z) :
    List.orderedInsert fileLE x l = x :: l := by
  cases l with
  | nil => rfl
  | cons z zs =>
    simp only [List.orderedInsert]
    rw [if_pos (h z (List.mem_cons_self z zs))]

/-- Auxiliary: filtering distributes over an ordered insert into a sorted list. -/
lemma filter_orderedInsert (p : String × Except String ThemeRecord → Bool)
    (x : String × Except String ThemeRecord) :
    ∀ l : List (String × Except String ThemeRecord), l.Sorted fileLE →
      (List.orderedInsert fileLE x l).filter p
        = if p x then List.orderedInsert fileLE x (l.filter p) else l.filter p := by
  intro l
  induction l with
  | nil =>
    intro _
    simp only [List.orderedInsert, List.filter]
    cases hp : p x
    · simp
    · simp
  | cons y ys ih =>
    intro hs
    have hsy : ys.Sorted fileLE := hs.of_cons
    simp only [List.orderedInsert]
    by_cases hxy : fileLE x y
    · rw [if_pos hxy, List.filter_cons]
      by_cases hpx : p x = true
      · rw [if_pos hpx, if_pos hpx, List.filter_cons]
        by_cases hpy : p y = true
        · rw [if_pos hpy]
          simp only [List.orderedInsert]
          rw [if_pos hxy]
        · rw [if_neg hpy]
          have hall : ∀ z ∈ ys.filter p, fileLE x z := by
            intro z hz
            have hz2 : z ∈ ys := List.mem_of_mem_filter hz
            have hyz : fileLE y z := (List.pairwise_cons.mp hs).1 z hz2
            exact charListLE_trans _ _ _ hxy hyz
          rw [orderedInsert_eq_cons x _ hall]
      · rw [if_neg hpx, if_neg hpx]
    · rw [if_neg hxy, List.filter_cons]
      by_cases hpy : p y = true
      · rw [if_pos hpy, ih hsy]
        by_cases hpx : p x = true
        · rw [if_pos hpx, if_pos hpx, List.filter_cons, if_pos hpy]
          simp only [List.orderedInsert]
          rw [if_neg hxy]
        · rw [if_neg hpx, if_neg hpx, List.filter_cons, if_pos hpy]
      · rw [if_neg hpy, ih hsy]
        by_cases hpx : p x = true
        · rw [if_pos hpx, if_pos hpx, List.filter_cons, if_neg hpy]
        · rw [if_neg hpx, if_neg hpx, List.filter_cons, if_neg hpy]

/-- Auxiliary: filtering commutes with insertion sort by filename. -/
lemma filter_insertionSort (p : String × Except String ThemeRecord → Bool)
    (l : List (String × Except String ThemeRecord)) :
    (l.insertionSort fileLE).filter p = (l.filter p).insertionSort fileLE := by
  induction l with
  | nil => rfl
  | cons x xs ih =>
    simp only [List.insertionSort]
    rw [filter_orderedInsert p x _ (List.sorted_insertionSort fileLE xs), ih, List.filter_cons]
    by_cases hpx : p x = true
    · rw [if_pos hpx, if_pos hpx]
      simp only [List.insertionSort]
    · rw [if_neg hpx, if_neg hpx]

/-- Auxiliary: the filterMap of the listing loop is the map of its summary over
the parseable entries. -/
lemma filterMap_listing (l : List (String × Except String ThemeRecord)) :
    (l.filterMap fun f =>
        match f.2 with
        | .error _ => none
        | .ok d => some (summarize (pyStem f.1) d))
      = (l.filter fun f => f.2.isOk).map okSummarize := by
  induction l with
  | nil => rfl
  | cons f fs ih =>
    rcases f with ⟨name, content⟩
    cases content with
    | error e =>
      simp only [List.filterMap_cons, List.filter_cons]
      simpa [Except.isOk, Except.toBool] using ih
    | ok d =>
      simp only [List.filterMap_cons, List.filter_cons]
      simpa [Except.isOk, Except.toBool, okSummarize] using ih

/-- Auxiliary: the id of a summarized entry is the file stem, whatever the parse
outcome. -/
lemma okSummarize_id (f : String × Except String ThemeRecord) :
    (okSummarize f).id = pyStem f.1 := by
  unfold okSummarize
  cases f.2 <;> rfl

/-- Auxiliary: the listing in closed form: one summary per parseable `.json`
entry, in filename order. -/
lemma list_themes_closed_form (fs : List (String × Except String ThemeRecord)) :
    list_themes (some fs)
      = ((fs.filter fun f => strEndsWith f.1 ".json" && f.2.isOk).insertionSort
          fileLE).map okSummarize := by
  have h0 : list_themes (some fs)
      = ((fs.filter fun f => strEndsWith f.1 ".json").insertionSort fileLE).filterMap fun f =>
          match f.2 with
          | .error _ => none
          | .ok d => some (summarize (pyStem f.1) d) := rfl
  rw [h0, filterMap_listing, filter_insertionSort, List.filter_filter]
  congr 2
  apply List.filter_congr
  intro f _
  cases h : f.2 <;> simp [Except.isOk, Except.toBool, h]

/-- C9 (amended): the theme listing returns an empty list when the directory is
missing; malformed records are invisible (the listing of a directory equals the
listing of its parseable entries); and the result is exactly one summary per
parseable `.json` record, ordered by on-disk *filename* (which agrees with
identifier order for conventional identifiers, but not in general). -/
theorem C9_listing_skips_malformed (files : List (String × Except String ThemeRecord)) :
    list_themes none = []
    ∧ list_themes (some files) = list_themes (some (files.filter fun f => f.2.isOk))
    ∧ list_themes (some files)
        = ((files.filter fun f => strEndsWith f.1 ".json" && f.2.isOk).insertionSort
            fileLE).map okSummarize
    ∧ (list_themes (some files)).map (fun s => s.id)
        = ((files.filter fun f => strEndsWith f.1 ".json" && f.2.isOk).insertionSort
            fileLE).map (fun f => pyStem f.1) := by
  refine ⟨rfl, ?_, list_themes_closed_form files, ?_⟩
  · rw [list_themes_closed_form files,
      list_themes_closed_form (files.filter fun f => f.2.isOk), List.filter_filter]
    congr 2
    apply List.filter_congr
    intro f _
    cases h : f.2 <;> simp [Except.isOk, Except.toBool, h]
  · rw [list_themes_closed_form files, List.map_map]
    apply List.map_congr_left
    intro f _
    exact okSummarize_id f

/-- C9 witness: a directory with a malformed record, a non-JSON entry and two
parseable records lists exactly the parseable `.json` ones, in filename order. -/
theorem C9_listing_skips_malformed_witness :
    list_themes (some [("warm_beige.json", .ok {}), ("broken.json", .error "bad json"),
        ("notes.txt", .ok {}), ("noir.json", .ok {name := some "Noir"})])
      = [summarize "noir" {name := some "Noir"}, summarize "warm_beige" {}] := by
  rw [(C9_listing_skips_malformed [("warm_beige.json", .ok {}),
      ("broken.json", .error "bad json"), ("notes.txt", .ok {}),
      ("noir.json", .ok {name := some "Noir"})]).2.2.1]
  decide

/-- C9 counterexample: with records `a.b.json` and `a.json` the listing is
ordered by filename, which puts identifier `a.b` before identifier `a`: the
result is not sorted by on-disk identifier as the claim states. -/
theorem C9_counterexample :
    (list_themes (some [("a.b.json", .ok {}), ("a.json", .ok {})])).map (fun s => s.id)
        = ["a.b", "a"]
    ∧ ¬ List.Sorted (fun a b : String => charListLE a.data b.data = true)
        ((list_themes (some [("a.b.json", .ok {}), ("a.json", .ok {})])).map
          (fun s => s.id)) := by
  constructor
  · decide
  · have e : (list_themes (some [("a.b.json", .ok {}), ("a.json", .ok {})])).map
        (fun s => s.id) = ["a.b", "a"] := by decide
    rw [e]
    intro h
    have h2 : charListLE "a.b".data "a".data = true :=
      (List.pairwise_cons.mp h).1 "a" (List.mem_cons_self _ _)
    exact absurd h2 (by decide)


/-! Word-wrap analysis, part 1: character and munging lemmas. -/

/-- Auxiliary: ASCII whitespace is Unicode whitespace. -/
lemma isPySpace_of_isAsciiWs (c : Char) (h : isAsciiWs c = true) : isPySpace c = true := by
  have hm : c = tabC ∨ c = lfC ∨ c = vtC ∨ c = ffC ∨ c = crC ∨ c = ' ' := by
    simpa [isAsciiWs, asciiWsChars, List.contains, or_assoc] using h
  rcases hm with h1 | h1 | h1 | h1 | h1 | h1 <;> subst h1 <;> decide

/-- Auxiliary: a space-only character is none of the five translated controls. -/
lemma spaceOnly_ne_five (c : Char) (h : spaceOnly c) :
    ¬ (c = tabC ∨ c = lfC ∨ c = vtC ∨ c = ffC ∨ c = crC) := by
  rintro (h1 | h1 | h1 | h1 | h1) <;> subst h1 <;>
    · have := h (by decide)
      exact absurd this (by decide)

/-- Auxiliary: characters of a tab expansion come from the input or are spaces. -/
lemma expandTabsGo_mem (ts : Nat) :
    ∀ l : List Char, ∀ col, ∀ c ∈ expandTabsGo ts l col, c ∈ l ∨ c = ' ' := by
  intro l
  induction l with
  | nil => intro col c hc; simp [expandTabsGo] at hc
  | cons a rest ih =>
    intro col c hc
    simp only [expandTabsGo] at hc
    by_cases ha : a = tabC
    · rw [if_pos ha] at hc
      rcases List.mem_append.mp hc with h | h
      · exact Or.inr (List.eq_of_mem_replicate h)
      · rcases ih _ c h with h2 | h2
        · exact Or.inl (List.mem_cons_of_mem a h2)
        · exact Or.inr h2
    · rw [if_neg ha] at hc
      by_cases hb : a = lfC ∨ a = crC
      · rw [if_pos hb] at hc
        rcases List.mem_cons.mp hc with h | h
        · exact Or.inl (h ▸ List.mem_cons_self a rest)
        · rcases ih _ c h with h2 | h2
          · exact Or.inl (List.mem_cons_of_mem a h2)
          · exact Or.inr h2
      · rw [if_neg hb] at hc
        rcases List.mem_cons.mp hc with h | h
        · exact Or.inl (h ▸ List.mem_cons_self a rest)
        · rcases ih _ c h with h2 | h2
          · exact Or.inl (List.mem_cons_of_mem a h2)
          · exact Or.inr h2

/-- Auxiliary: tab expansion is the identity on tab-free text. -/
lemma expandTabsGo_id (ts : Nat) :
    ∀ l : List Char, (∀ c ∈ l, ¬ c = tabC) → ∀ col, expandTabsGo ts l col = l := by
  intro l
  induction l with
  | nil => intro _ col; rfl
  | cons a rest ih =>
    intro h col
    have ha : ¬ a = tabC := h a (List.mem_cons_self a rest)
    have hrest : ∀ c ∈ rest, ¬ c = tabC := fun c hc => h c (List.mem_cons_of_mem a hc)
    simp only [expandTabsGo, if_neg ha]
    by_cases hb : a = lfC ∨ a = crC
    · rw [if_pos hb, ih hrest 0]
    · rw [if_neg hb, ih hrest (col + 1)]

/-- Auxiliary: non-tab characters survive tab expansion. -/
lemma expandTabsGo_mem_of_mem (ts : Nat) :
    ∀ l : List Char, ∀ c ∈ l, ¬ c = tabC → ∀ col, c ∈ expandTabsGo ts l col := by
  intro l
  induction l with
  | nil => intro c hc; simp at hc
  | cons a rest ih =>
    intro c hc hct col
    simp only [expandTabsGo]
    rcases List.mem_cons.mp hc with h | h
    · subst h
      rw [if_neg hct]
      by_cases hb : c = lfC ∨ c = crC
      · rw [if_pos hb]; exact List.mem_cons_self _ _
      · rw [if_neg hb]; exact List.mem_cons_self _ _
    · by_cases ha : a = tabC
      · rw [if_pos ha]
        exact List.mem_append.mpr (Or.inr (ih c h hct _))
      · rw [if_neg ha]
        by_cases hb : a = lfC ∨ a = crC
        · rw [if_pos hb]; exact List.mem_cons_of_mem a (ih c h hct _)
        · rw [if_neg hb]; exact List.mem_cons_of_mem a (ih c h hct _)

/-- Auxiliary: characters after whitespace translation are spaces or untranslated
input characters. -/
lemma translateWsToSpace_mem (l : List Char) (c : Char) (hc : c ∈ translateWsToSpace l) :
    c = ' ' ∨ (c ∈ l ∧ ¬ (c = tabC ∨ c = lfC ∨ c = vtC ∨ c = ffC ∨ c = crC)) := by
  unfold translateWsToSpace at hc
  rcases List.mem_map.mp hc with ⟨a, ha, hfa⟩
  by_cases h5 : a = tabC ∨ a = lfC ∨ a = vtC ∨ a = ffC ∨ a = crC
  · rw [if_pos h5] at hfa
    exact Or.inl hfa.symm
  · rw [if_neg h5] at hfa
    subst hfa
    exact Or.inr ⟨ha, h5⟩

/-- Auxiliary: whitespace translation is the identity when none of the five
controls occur. -/
lemma translateWsToSpace_id (l : List Char)
    (h : ∀ c ∈ l, ¬ (c = tabC ∨ c = lfC ∨ c = vtC ∨ c = ffC ∨ c = crC)) :
    translateWsToSpace l = l := by
  unfold translateWsToSpace
  rw [List.map_congr_left fun c hc => if_neg (h c hc)]
  exact List.map_id l

/-- Auxiliary: untranslated characters survive whitespace translation. -/
lemma translateWsToSpace_mem_of_mem (l : List Char) (c : Char) (hc : c ∈ l)
    (h5 : ¬ (c = tabC ∨ c = lfC ∨ c = vtC ∨ c = ffC ∨ c = crC)) :
    c ∈ translateWsToSpace l := by
  unfold translateWsToSpace
  exact List.mem_map.mpr ⟨c, hc, if_neg h5⟩

/-- Auxiliary: munging tame text produces space-only characters. -/
lemma mungeWhitespace_spaceOnly (l : List Char) (h : ∀ c ∈ l, tameChar c) :
    ∀ c ∈ mungeWhitespace l, spaceOnly c := by
  intro c hc hpc
  unfold mungeWhitespace at hc
  rcases translateWsToSpace_mem _ c hc with h1 | ⟨h1, h5⟩
  · exact h1
  · rcases expandTabsGo_mem 8 l 0 c h1 with h2 | h2
    · have hws : isAsciiWs c = true := h c h2 hpc
      have hm : c = tabC ∨ c = lfC ∨ c = vtC ∨ c = ffC ∨ c = crC ∨ c = ' ' := by
        simpa [isAsciiWs, asciiWsChars, List.contains, or_assoc] using hws
      rcases hm with h3 | h3 | h3 | h3 | h3 | h3
      · exact absurd (Or.inl h3) h5
      · exact absurd (Or.inr (Or.inl h3)) h5
      · exact absurd (Or.inr (Or.inr (Or.inl h3))) h5
      · exact absurd (Or.inr (Or.inr (Or.inr (Or.inl h3)))) h5
      · exact absurd (Or.inr (Or.inr (Or.inr (Or.inr h3)))) h5
      · exact h3
    · exact h2

/-- Auxiliary: munging is the identity on space-only text. -/
lemma mungeWhitespace_id (l : List Char) (h : ∀ c ∈ l, spaceOnly c) :
    mungeWhitespace l = l := by
  unfold mungeWhitespace
  rw [expandTabsGo_id 8 l (fun c hc => fun ht => spaceOnly_ne_five c (h c hc) (Or.inl ht)) 0]
  exact translateWsToSpace_id l fun c hc => spaceOnly_ne_five c (h c hc)

/-- Auxiliary: a non-whitespace character of the input survives munging. -/
lemma mungeWhitespace_mem_of_not_space (l : List Char) (c : Char) (hc : c ∈ l)
    (hs : isPySpace c = false) : c ∈ mungeWhitespace l := by
  have h5 : ¬ (c = tabC ∨ c = lfC ∨ c = vtC ∨ c = ffC ∨ c = crC) := by
    rintro (h1 | h1 | h1 | h1 | h1) <;> subst h1 <;> exact absurd hs (by decide)
  have hct : ¬ c = tabC := fun h1 => h5 (Or.inl h1)
  unfold mungeWhitespace
  exact translateWsToSpace_mem_of_mem _ c (expandTabsGo_mem_of_mem 8 l c hc hct 0) h5

/-! Word-wrap analysis, part 2: chunk splitting. -/

/-- Auxiliary: the word-end scan stops at the first stop position. -/
lemma wordEndGo_spec (t : List Char) (i : Nat) :
    ∀ fuel j, j ≤ t.length → t.length ≤ j + fuel →
      j ≤ wordEndGo t i fuel j ∧ wordEndGo t i fuel j ≤ t.length
        ∧ stopAt t i (wordEndGo t i fuel j) = true
        ∧ ∀ m, j ≤ m → m < wordEndGo t i fuel j → stopAt t i m = false := by
  intro fuel
  induction fuel with
  | zero =>
    intro j hj hlen
    have hj2 : j = t.length := by omega
    simp only [wordEndGo]
    refine ⟨le_refl _, le_of_eq hj2, ?_, fun m h1 h2 => absurd h1 (by omega)⟩
    have hd : decide (t.length ≤ j) = true := decide_eq_true (by omega)
    unfold stopAt
    rw [hd]
    rfl
  | succ f ih =>
    intro j hj hlen
    simp only [wordEndGo]
    by_cases hstop : stopAt t i j = true
    · rw [if_pos hstop]
      exact ⟨le_refl _, hj, hstop, fun m h1 h2 => absurd h1 (by omega)⟩
    · rw [if_neg hstop]
      have hjlen : j < t.length := by
        by_contra hc
        apply hstop
        have hd : decide (t.length ≤ j) = true := decide_eq_true (by omega)
        unfold stopAt
        rw [hd]
        rfl
      obtain ⟨h1, h2, h3, h4⟩ := ih (j + 1) hjlen (by omega)
      refine ⟨by omega, h2, h3, fun m hm1 hm2 => ?_⟩
      by_cases hmj : m = j
      · exact hmj ▸ Bool.eq_false_iff.mpr hstop
      · exact h4 m (by omega) hm2

/-- Auxiliary: the character just past a takeWhile run fails the predicate. -/
lemma takeWhile_stop (p : Char → Bool) :
    ∀ l : List Char, ∀ c, l.get? (l.takeWhile p).length = some c → p c = false := by
  intro l
  induction l with
  | nil => intro c h; simp at h
  | cons a as ih =>
    intro c h
    by_cases hp : p a = true
    · rw [List.takeWhile_cons_of_pos hp] at h
      exact ih c h
    · rw [List.takeWhile_cons_of_neg hp] at h
      simp only [List.length_nil, List.get?] at h
      cases h
      exact Bool.eq_false_iff.mpr hp

/-- Auxiliary: a member of a windowed slice sits at an absolute index. -/
lemma mem_take_drop_index (t : List Char) (i n : Nat) (c : Char)
    (hc : c ∈ (t.drop i).take n) : ∃ k, k < n ∧ t.get? (i + k) = some c := by
  obtain ⟨k, hk⟩ := List.mem_iff_get?.mp hc
  have hkn : k < n := by
    have := List.get?_eq_some.mp hk
    obtain ⟨hlt, _⟩ := this
    have := List.length_take n (t.drop i)
    omega
  refine ⟨k, hkn, ?_⟩
  rw [List.get?_take hkn, List.get?_drop] at hk
  exact hk

/-- Auxiliary: bounds for a chunk-regex match. -/
lemma matchEnd_bounds (t : List Char) (i : Nat) (hi : i < t.length) :
    i < matchEnd t i ∧ matchEnd t i ≤ t.length := by
  have hget : ∃ c, t.get? i = some c := by
    rw [List.get?_eq_getElem?]
    exact ⟨t[i], List.getElem?_eq_getElem hi⟩
  obtain ⟨c, hc⟩ := hget
  have hdropc : t.drop i = c :: t.drop (i + 1) := by
    have hd := List.drop_eq_getElem_cons (l := t) (n := i) hi
    have hc2 : t[i] = c := by
      rw [List.get?_eq_getElem?, List.getElem?_eq_getElem hi] at hc
      exact Option.some_injective _ hc
    rw [hc2] at hd
    exact hd
  unfold matchEnd
  rw [hc]
  dsimp only
  by_cases hws : isAsciiWs c = true
  · rw [if_pos hws]
    constructor
    · have hne : wsRunLen t i ≠ 0 := by
        unfold wsRunLen
        intro h0
        rw [hdropc, List.takeWhile_cons_of_pos hws] at h0
        simp at h0
      omega
    · have hw1 : wsRunLen t i ≤ (t.drop i).length :=
        List.IsPrefix.length_le (List.takeWhile_prefix _)
      have hw2 := List.length_drop i t
      omega
  · rw [if_neg hws]
    cases he : emDashRun t i with
    | some j =>
      dsimp only
      unfold emDashRun at he
      dsimp only at he
      split at he
      next hcond =>
        obtain ⟨_, _, hr, _⟩ := hcond
        injection he with hj
        have hr1 : hyphenRunLen t i ≤ (t.drop i).length :=
          List.IsPrefix.length_le (List.takeWhile_prefix _)
        have hr2 := List.length_drop i t
        subst hj
        constructor
        · omega
        · omega
      next => cases he
    | none =>
      dsimp only
      obtain ⟨h1, h2, _, _⟩ := wordEndGo_spec t i t.length (i + 1) (by omega) (by omega)
      unfold wordEnd
      exact ⟨by omega, h2⟩

/-- Auxiliary: the chunks of the scan concatenate to the remaining text. -/
lemma splitChunksGo_flatten (t : List Char) :
    ∀ fuel i, i ≤ t.length → t.length - i ≤ fuel →
      (splitChunksGo t fuel i).flatten = t.drop i := by
  intro fuel
  induction fuel with
  | zero =>
    intro i hi hf
    have : i = t.length := by omega
    subst this
    simp [splitChunksGo, List.drop_length]
  | succ f ih =>
    intro i hi hf
    simp only [splitChunksGo]
    by_cases hlen : t.length ≤ i
    · rw [if_pos hlen]
      have : i = t.length := by omega
      subst this
      simp [List.drop_length]
    · rw [if_neg hlen]
      have hb := matchEnd_bounds t i (by omega)
      simp only [List.flatten_cons]
      rw [ih (matchEnd t i) (by omega) (by omega)]
      have hdd : t.drop (matchEnd t i) = (t.drop i).drop (matchEnd t i - i) := by
        rw [List.drop_drop]
        congr 1
        omega
      rw [hdd]
      exact List.take_append_drop _ _

/-- Auxiliary: every chunk of the scan is nonempty. -/
lemma splitChunksGo_ne_nil (t : List Char) :
    ∀ fuel i, ∀ ch ∈ splitChunksGo t fuel i, ch ≠ [] := by
  intro fuel
  induction fuel with
  | zero => intro i ch hch; simp [splitChunksGo] at hch
  | succ f ih =>
    intro i ch hch
    simp only [splitChunksGo] at hch
    by_cases hlen : t.length ≤ i
    · rw [if_pos hlen] at hch
      simp at hch
    · rw [if_neg hlen] at hch
      rcases List.mem_cons.mp hch with h | h
      · subst h
        have hb := matchEnd_bounds t i (by omega)
        intro hnil
        have hl := congrArg List.length hnil
        rw [List.length_take, List.length_drop] at hl
        simp only [List.length_nil] at hl
        omega
      · exact ih _ ch h

/-- Auxiliary: chunk characters come from the text. -/
lemma splitChunksGo_mem (t : List Char) :
    ∀ fuel i, ∀ ch ∈ splitChunksGo t fuel i, ∀ c ∈ ch, c ∈ t := by
  intro fuel
  induction fuel with
  | zero => intro i ch hch; simp [splitChunksGo] at hch
  | succ f ih =>
    intro i ch hch c hc
    simp only [splitChunksGo] at hch
    by_cases hlen : t.length ≤ i
    · rw [if_pos hlen] at hch
      simp at hch
    · rw [if_neg hlen] at hch
      rcases List.mem_cons.mp hch with h | h
      · subst h
        exact List.mem_of_mem_drop (List.mem_of_mem_take hc)
      · exact ih _ ch h c hc

/-- Auxiliary: elements within a takeWhile window satisfy the predicate. -/
lemma takeWhile_get (p : Char → Bool) (l : List Char) (k : Nat) (x : Char)
    (hk : k < (l.takeWhile p).length) (hx : l.get? k = some x) : p x = true := by
  have hpre : l.takeWhile p = l.take (l.takeWhile p).length :=
    List.prefix_iff_eq_take.mp (List.takeWhile_prefix p)
  have hsame : (l.takeWhile p).get? k = some x := by
    rw [hpre, List.get?_take hk]
    exact hx
  exact List.mem_takeWhile_imp (List.get?_mem hsame)

/-- Auxiliary: when the scan starts at a whitespace character the chunk consists
of whitespace. -/
lemma chunk_head_ws (t : List Char) (i : Nat) (c : Char)
    (hc : t.get? i = some c) (hws : isAsciiWs c = true) :
    ∀ x ∈ (t.drop i).take (matchEnd t i - i), isAsciiWs x = true := by
  intro x hx
  obtain ⟨k, hk, hxk⟩ := mem_take_drop_index t i _ x hx
  unfold matchEnd at hk
  rw [hc] at hk
  dsimp only at hk
  rw [if_pos hws] at hk
  have hk2 : k < wsRunLen t i := by omega
  unfold wsRunLen at hk2
  have : (t.drop i).get? k = some x := by
    rw [List.get?_drop]
    exact hxk
  exact takeWhile_get isAsciiWs (t.drop i) k x hk2 this

/-- Auxiliary: when the scan starts at a non-whitespace character the chunk
contains no whitespace. -/
lemma chunk_head_not_ws (t : List Char) (i : Nat) (c : Char)
    (hc : t.get? i = some c) (hws : isAsciiWs c = false) :
    ∀ x ∈ (t.drop i).take (matchEnd t i - i), isAsciiWs x = false := by
  intro x hx
  obtain ⟨k, hk, hxk⟩ := mem_take_drop_index t i _ x hx
  unfold matchEnd at hk
  rw [hc] at hk
  dsimp only at hk
  rw [hws] at hk
  simp only [Bool.false_eq_true, if_false] at hk
  cases he : emDashRun t i with
  | some j =>
    rw [he] at hk
    dsimp only at hk
    unfold emDashRun at he
    dsimp only at he
    split at he
    next hcond =>
      injection he with hj
      have hk2 : k < hyphenRunLen t i := by omega
      unfold hyphenRunLen at hk2
      have hgx : (t.drop i).get? k = some x := by
        rw [List.get?_drop]
        exact hxk
      have : x = '-' := of_decide_eq_true (takeWhile_get _ (t.drop i) k x hk2 hgx)
      subst this
      decide
    next => cases he
  | none =>
    rw [he] at hk
    dsimp only at hk
    unfold wordEnd at hk
    rcases Nat.eq_zero_or_pos k with hk0 | hkpos
    · subst hk0
      rw [Nat.add_zero] at hxk
      rw [hxk] at hc
      cases hc
      exact hws
    · obtain ⟨_, _, _, hfirst⟩ := wordEndGo_spec t i t.length (i + 1)
        (by
          rcases Nat.lt_or_ge i t.length with h | h
          · omega
          · exfalso
            have : t.get? i = none := List.get?_eq_none.mpr h
            rw [this] at hc
            cases hc)
        (by omega)
      have hstop := hfirst (i + k) (by omega) (by omega)
      unfold stopAt at hstop
      simp only [Bool.or_eq_false_iff] at hstop
      obtain ⟨⟨⟨_, hmid⟩, _⟩, _⟩ := hstop
      rw [hxk] at hmid
      exact hmid

/-- Auxiliary: the character just past a whitespace chunk is not whitespace. -/
lemma after_ws_chunk (t : List Char) (i : Nat) (c : Char)
    (hc : t.get? i = some c) (hws : isAsciiWs c = true) (c2 : Char)
    (hc2 : t.get? (matchEnd t i) = some c2) : isAsciiWs c2 = false := by
  have hme : matchEnd t i = i + wsRunLen t i := by
    unfold matchEnd
    rw [hc]
    dsimp only
    rw [if_pos hws]
  rw [hme] at hc2
  have : (t.drop i).get? (wsRunLen t i) = some c2 := by
    rw [List.get?_drop]
    exact hc2
  exact takeWhile_stop isAsciiWs (t.drop i) c2 this

/-- Auxiliary: adjacent chunks never are both whitespace: at least one member of
every adjacent pair is whitespace-free. -/
lemma splitChunksGo_chain (t : List Char) :
    ∀ fuel i, List.Chain'
      (fun a b => (∀ x ∈ a, isAsciiWs x = false) ∨ (∀ x ∈ b, isAsciiWs x = false))
      (splitChunksGo t fuel i) := by
  intro fuel
  induction fuel with
  | zero => intro i; simp [splitChunksGo]
  | succ f ih =>
    intro i
    simp only [splitChunksGo]
    by_cases hlen : t.length ≤ i
    · rw [if_pos hlen]; simp
    · rw [if_neg hlen]
      rw [List.chain'_cons']
      refine ⟨?_, ih _⟩
      intro b hb
      obtain ⟨c, hc⟩ : ∃ c, t.get? i = some c := by
        rw [List.get?_eq_getElem?]
        exact ⟨t[i], List.getElem?_eq_getElem (by omega)⟩
      by_cases hws : isAsciiWs c = true
      · right
        cases f with
        | zero => simp [splitChunksGo] at hb
        | succ f2 =>
          simp only [splitChunksGo] at hb
          by_cases hlen2 : t.length ≤ matchEnd t i
          · rw [if_pos hlen2] at hb
            simp at hb
          · rw [if_neg hlen2] at hb
            simp only [List.head?_cons, Option.mem_def, Option.some.injEq] at hb
            obtain ⟨c2, hc2⟩ : ∃ c2, t.get? (matchEnd t i) = some c2 := by
              rw [List.get?_eq_getElem?]
              exact ⟨t[matchEnd t i], List.getElem?_eq_getElem (by omega)⟩
            have hnws := after_ws_chunk t i c hc hws c2 hc2
            rw [← hb]
            exact chunk_head_not_ws t (matchEnd t i) c2 hc2 hnws
      · left
        exact chunk_head_not_ws t i c hc (Bool.eq_false_iff.mpr hws)

/-- Auxiliary: every chunk is all-whitespace or whitespace-free. -/
lemma splitChunksGo_dichotomy (t : List Char) :
    ∀ fuel i, ∀ ch ∈ splitChunksGo t fuel i,
      (∀ x ∈ ch, isAsciiWs x = true) ∨ (∀ x ∈ ch, isAsciiWs x = false) := by
  intro fuel
  induction fuel with
  | zero => intro i ch hch; simp [splitChunksGo] at hch
  | succ f ih =>
    intro i ch hch
    simp only [splitChunksGo] at hch
    by_cases hlen : t.length ≤ i
    · rw [if_pos hlen] at hch; simp at hch
    · rw [if_neg hlen] at hch
      rcases List.mem_cons.mp hch with h | h
      · subst h
        obtain ⟨c, hc⟩ : ∃ c, t.get? i = some c := by
          rw [List.get?_eq_getElem?]
          exact ⟨t[i], List.getElem?_eq_getElem (by omega)⟩
        by_cases hws : isAsciiWs c = true
        · exact Or.inl (chunk_head_ws t i c hc hws)
        · exact Or.inr (chunk_head_not_ws t i c hc (Bool.eq_false_iff.mpr hws))
      · exact ih _ ch h

/-! Word-wrap analysis, part 3: packing and long-word handling. -/

/-- Auxiliary: sumLen of nil. -/
lemma sumLen_nil : sumLen [] = 0 := rfl

/-- Auxiliary: sumLen of a cons. -/
lemma sumLen_cons (c : List Char) (l : List (List Char)) :
    sumLen (c :: l) = c.length + sumLen l := by
  simp [sumLen]

/-- Auxiliary: sumLen of an append. -/
lemma sumLen_append (l1 l2 : List (List Char)) :
    sumLen (l1 ++ l2) = sumLen l1 + sumLen l2 := by
  simp [sumLen]

/-- Auxiliary: the packed prefix and the remaining stack concatenate to the
input. -/
lemma packChunks_append (w : Nat) :
    ∀ k l, (packChunks w k l).1 ++ (packChunks w k l).2 = l := by
  intro k l
  induction l generalizing k with
  | nil => rfl
  | cons c rest ih =>
    simp only [packChunks]
    by_cases hfit : k + c.length ≤ w
    · rw [if_pos hfit]
      simpa using ih (k + c.length)
    · rw [if_neg hfit]
      rfl

/-- Auxiliary: packing never exceeds the width budget. -/
lemma packChunks_sum (w : Nat) :
    ∀ k l, k ≤ w → k + sumLen (packChunks w k l).1 ≤ w := by
  intro k l
  induction l generalizing k with
  | nil => intro hk; simpa [packChunks, sumLen] using hk
  | cons c rest ih =>
    intro hk
    simp only [packChunks]
    by_cases hfit : k + c.length ≤ w
    · rw [if_pos hfit]
      have := ih (k + c.length) hfit
      simp only [sumLen_cons]
      omega
    · rw [if_neg hfit]
      simpa [sumLen] using hk

/-- Auxiliary: an empty packed prefix means the head chunk does not fit. -/
lemma packChunks_head_big (w k : Nat) (c : List Char) (rest : List (List Char))
    (h : (packChunks w k (c :: rest)).1 = []) : w < k + c.length := by
  by_contra hc
  simp only [packChunks, if_pos (by omega : k + c.length ≤ w)] at h
  exact List.cons_ne_nil _ _ h

/-- Auxiliary: when everything fits, everything is packed. -/
lemma packChunks_all (w : Nat) :
    ∀ k l, k + sumLen l ≤ w → packChunks w k l = (l, []) := by
  intro k l
  induction l generalizing k with
  | nil => intro _; rfl
  | cons c rest ih =>
    intro hfit
    rw [sumLen_cons] at hfit
    simp only [packChunks, if_pos (by omega : k + c.length ≤ w)]
    rw [ih (k + c.length) (by omega)]

/-- Auxiliary: the long-word split concatenates back to the chunk. -/
lemma handleLongWord_append (w k : Nat) (c : List Char) :
    (handleLongWord w k c).1 ++ (handleLongWord w k c).2 = c := by
  unfold handleLongWord
  exact List.take_append_drop _ _

/-- Auxiliary: the split index of the long-word handler stays within the
remaining space. -/
lemma handleLongWord_piece_le (w k : Nat) (c : List Char) (hw : 1 ≤ w) :
    (handleLongWord w k c).1.length ≤ w - k := by
  unfold handleLongWord
  dsimp only
  rw [if_neg (by omega : ¬ w < 1)]
  set sL := w - k with hsL
  by_cases hbig : sL < c.length
  · rw [if_pos hbig]
    cases hfind : lastHyphenBefore c sL with
    | some h =>
      dsimp only
      have hh : h + 1 ≤ sL := by
        unfold lastHyphenBefore at hfind
        cases hidx : (c.take sL).reverse.findIdx? fun x => x = '-' with
        | some rr =>
          rw [hidx] at hfind
          injection hfind with hfind
          have hrr : rr < (c.take sL).reverse.length :=
            (List.findIdx?_eq_some_iff_findIdx_eq.mp hidx).1
          rw [List.length_reverse] at hrr
          have hlen := List.length_take sL c
          omega
        | none => rw [hidx] at hfind; cases hfind
      split
      · have := List.length_take (h + 1) c
        omega
      · have := List.length_take sL c
        omega
    | none =>
      dsimp only
      have := List.length_take sL c
      omega
  · rw [if_neg hbig]
    have := List.length_take sL c
    omega

/-- Auxiliary: the long-word remainder is nonempty when the chunk exceeds the
width. -/
lemma handleLongWord_rest_ne (w k : Nat) (c : List Char) (hw : 1 ≤ w)
    (hbig : w < c.length) (hk : k ≤ w) : (handleLongWord w k c).2 ≠ [] := by
  have hp := handleLongWord_piece_le w k c hw
  have happ := handleLongWord_append w k c
  intro hnil
  rw [hnil, List.append_nil] at happ
  have := congrArg List.length happ
  omega

/-- Auxiliary: with nothing on the line, the long-word piece is nonempty. -/
lemma handleLongWord_piece_ne (w : Nat) (c : List Char) (hw : 1 ≤ w)
    (hbig : w < c.length) : (handleLongWord w 0 c).1 ≠ [] := by
  unfold handleLongWord
  dsimp only
  rw [if_neg (by omega : ¬ w < 1)]
  have hc0 : c ≠ [] := by
    intro h; subst h; simp at hbig
  have hsL : w - 0 = w := by omega
  rw [hsL]
  rw [if_pos (by omega : w < c.length)]
  cases hfind : lastHyphenBefore c w with
  | some h =>
    dsimp only
    split
    next hcond =>
      obtain ⟨hpos, _⟩ := hcond
      intro hnil
      rcases List.take_eq_nil_iff.mp hnil with h1 | h1
      · exact Nat.succ_ne_zero _ h1
      · exact hc0 h1
    next =>
      intro hnil
      rcases List.take_eq_nil_iff.mp hnil with h1 | h1 <;>
        first
          | exact hc0 h1
          | omega
  | none =>
    dsimp only
    intro hnil
    rcases List.take_eq_nil_iff.mp hnil with h1 | h1 <;>
      first
        | exact hc0 h1
        | omega

/-- Auxiliary: the pieces of a long-word split use the chunk's characters. -/
lemma handleLongWord_mem (w k : Nat) (c : List Char) :
    (∀ x ∈ (handleLongWord w k c).1, x ∈ c) ∧ ∀ x ∈ (handleLongWord w k c).2, x ∈ c := by
  constructor
  · intro x hx
    unfold handleLongWord at hx
    exact List.mem_of_mem_take hx
  · intro x hx
    unfold handleLongWord at hx
    exact List.mem_of_mem_drop hx

/-! Word-wrap analysis, part 4: bridges between the Boolean tests and the
whitespace predicates. -/

/-- Auxiliary: over space-only characters, the strip test recognizes exactly the
all-space chunks. -/
lemma chunkBlank_iff (c : List Char) (h : ∀ x ∈ c, spaceOnly x) :
    chunkBlank c = true ↔ BlankChunk c := by
  unfold chunkBlank pyIsBlank BlankChunk
  rw [List.all_eq_true]
  constructor
  · intro hb x hx
    exact h x hx (hb x hx)
  · intro hb x hx
    rw [hb x hx]
    decide

/-- Auxiliary: an all-whitespace chunk of space-only characters is all-space. -/
lemma blankChunk_of_allWs (c : List Char) (h : ∀ x ∈ c, spaceOnly x)
    (hws : ∀ x ∈ c, isAsciiWs x = true) : BlankChunk c :=
  fun x hx => h x hx (isPySpace_of_isAsciiWs x (hws x hx))

/-- Auxiliary: a whitespace-free chunk contains no space. -/
lemma no_space_of_allNonWs (c : List Char) (hws : ∀ x ∈ c, isAsciiWs x = false) :
    ∀ x ∈ c, ¬ x = ' ' := by
  intro x hx hsp
  subst hsp
  have := hws _ hx
  exact absurd this (by decide)

/-- Auxiliary: a nonempty whitespace-free chunk is not all-space. -/
lemma not_blank_of_allNonWs (c : List Char) (hne : c ≠ [])
    (hws : ∀ x ∈ c, isAsciiWs x = false) : ¬ BlankChunk c := by
  intro hb
  obtain ⟨x, hx⟩ := List.exists_mem_of_ne_nil c hne
  have h1 := hb x hx
  have h2 := hws x hx
  subst h1
  exact absurd h2 (by decide)

/-- Auxiliary: a flatten of nonempty chunks headed by at least one chunk is
nonempty. -/
lemma flatten_ne_nil (L : List (List Char)) (hL : L ≠ []) (h : ∀ c ∈ L, c ≠ []) :
    L.flatten ≠ [] := by
  cases L with
  | nil => exact absurd rfl hL
  | cons a L2 =>
    have ha := h a (List.mem_cons_self a L2)
    intro hnil
    rw [List.flatten_cons] at hnil
    rcases List.append_eq_nil.mp hnil with ⟨h1, _⟩
    exact ha h1

/-- Auxiliary: the last element of a flatten is the last element of the final
chunk. -/
lemma flatten_getLast_concat (L : List (List Char)) (z : List Char) (hz : z ≠ []) :
    ((L ++ [z]).flatten).getLast? = z.getLast? := by
  rw [List.getLast?_flatten, List.reverse_append]
  simp only [List.reverse_cons, List.reverse_nil, List.nil_append, List.cons_append,
    List.findSome?_cons]
  cases hzl : z.getLast? with
  | none => exact absurd (List.getLast?_eq_none_iff.mp hzl) hz
  | some a => rfl

/-- Auxiliary: the last element of a list belongs to it. -/
lemma mem_of_getLast? {l : List Char} {a : Char} (h : l.getLast? = some a) : a ∈ l := by
  cases l with
  | nil => simp at h
  | cons b bs => exact List.mem_of_mem_getLast? h

/-! Word-wrap analysis, part 5: list utilities for the loop invariant. -/

/-- Auxiliary: the chunk total equals the flattened length. -/
lemma sumLen_eq_flatten_length (L : List (List Char)) : sumLen L = L.flatten.length := by
  induction L with
  | nil => rfl
  | cons c cs ih => simp [sumLen_cons, ih]

/-- Auxiliary: a flatMap where every element maps to its singleton is the
identity. -/
lemma flatMap_id_of_singleton {α : Type} (L : List α) (f : α → List α)
    (h : ∀ a ∈ L, f a = [a]) : L.flatMap f = L := by
  induction L with
  | nil => rfl
  | cons a as ih =>
    rw [List.flatMap_cons, h a (List.mem_cons_self a as),
      ih fun b hb => h b (List.mem_cons_of_mem a hb)]
    rfl

/-- Auxiliary: a flatMap of nonempty images over a nonempty list is nonempty. -/
lemma flatMap_ne_nil {α β : Type} (L : List α) (f : α → List β) (hL : L ≠ [])
    (h : ∀ a ∈ L, f a ≠ []) : L.flatMap f ≠ [] := by
  cases L with
  | nil => exact absurd rfl hL
  | cons a as =>
    rw [List.flatMap_cons]
    intro hnil
    rcases List.append_eq_nil.mp hnil with ⟨h1, _⟩
    exact h a (List.mem_cons_self a as) h1

/-- Auxiliary: a split is never the empty list of parts. -/
lemma splitOnChar_ne_nil (sep : Char) : ∀ l, splitOnChar sep l ≠ [] := by
  intro l
  induction l with
  | nil => simp [splitOnChar]
  | cons c rest ih =>
    simp only [splitOnChar]
    cases h : splitOnChar sep rest with
    | nil => simp
    | cons p t =>
      dsimp only
      by_cases hc : c = sep
      · rw [if_pos hc]
        simp
      · rw [if_neg hc]
        simp

/-- Auxiliary: characters of the parts come from the text and are never the
separator. -/
lemma splitOnChar_mem (sep : Char) :
    ∀ l, ∀ p ∈ splitOnChar sep l, ∀ c ∈ p, c ∈ l ∧ ¬ c = sep := by
  intro l
  induction l with
  | nil =>
    intro p hp c hc
    simp only [splitOnChar, List.mem_singleton] at hp
    subst hp
    simp at hc
  | cons a rest ih =>
    intro p hp c hc
    simp only [splitOnChar] at hp
    cases h : splitOnChar sep rest with
    | nil => exact absurd h (splitOnChar_ne_nil sep rest)
    | cons q t =>
      rw [h] at hp
      dsimp only at hp
      by_cases ha : a = sep
      · rw [if_pos ha] at hp
        rcases List.mem_cons.mp hp with h1 | h1
        · subst h1
          simp at hc
        · have h2 := ih p (by rw [h]; exact h1) c hc
          exact ⟨List.mem_cons_of_mem a h2.1, h2.2⟩
      · rw [if_neg ha] at hp
        rcases List.mem_cons.mp hp with h1 | h1
        · subst h1
          rcases List.mem_cons.mp hc with h2 | h2
          · rw [h2]
            exact ⟨List.mem_cons_self a rest, ha⟩
          · have h3 := ih q (by rw [h]; exact List.mem_cons_self q t) c h2
            exact ⟨List.mem_cons_of_mem a h3.1, h3.2⟩
        · have h2 := ih p (by rw [h]; exact List.mem_cons_of_mem q h1) c hc
          exact ⟨List.mem_cons_of_mem a h2.1, h2.2⟩

/-- Auxiliary: a separator-free text splits to itself. -/
lemma splitOnChar_single (sep : Char) :
    ∀ l, (¬ sep ∈ l) → splitOnChar sep l = [l] := by
  intro l
  induction l with
  | nil => intro _; rfl
  | cons a rest ih =>
    intro hs
    have ha : ¬ a = sep := fun h => hs (by rw [h]; exact List.mem_cons_self _ _)
    have hrest : ¬ sep ∈ rest := fun h => hs (List.mem_cons_of_mem a h)
    simp only [splitOnChar]
    rw [ih hrest]
    dsimp only
    rw [if_neg ha]

/-- Auxiliary: splitting a text that starts with a separator-free part followed
by a separator peels off that part. -/
lemma splitOnChar_append (sep : Char) :
    ∀ p r, (¬ sep ∈ p) → splitOnChar sep (p ++ sep :: r) = p :: splitOnChar sep r := by
  intro p
  induction p with
  | nil =>
    intro r _
    simp only [List.nil_append, splitOnChar]
    cases h : splitOnChar sep r with
    | nil => exact absurd h (splitOnChar_ne_nil sep r)
    | cons q t =>
      dsimp only
      simp
  | cons a p2 ih =>
    intro r hs
    have ha : ¬ a = sep := fun h => hs (by rw [h]; exact List.mem_cons_self _ _)
    have hp2 : ¬ sep ∈ p2 := fun h => hs (List.mem_cons_of_mem a h)
    have key := ih r hp2
    rw [List.cons_append]
    simp only [splitOnChar]
    rw [key]
    dsimp only
    rw [if_neg ha]

/-- Auxiliary: joining two or more parts with newlines. -/
lemma joinNlChars_cons₂ (p q : List Char) (rs : List (List Char)) :
    joinNlChars (p :: q :: rs) = p ++ lfC :: joinNlChars (q :: rs) := rfl

/-- Auxiliary: splitting a newline-join of newline-free parts recovers the
parts. -/
lemma splitOnChar_joinNl :
    ∀ L : List (List Char), L ≠ [] → (∀ p ∈ L, ¬ lfC ∈ p) →
      splitOnChar lfC (joinNlChars L) = L := by
  intro L
  induction L with
  | nil => intro h _; exact absurd rfl h
  | cons p rest ih =>
    intro _ hfree
    cases rest with
    | nil => exact splitOnChar_single lfC p (hfree p (List.mem_cons_self p []))
    | cons q rs =>
      rw [joinNlChars_cons₂,
        splitOnChar_append lfC p _ (hfree p (List.mem_cons_self p (q :: rs))),
        ih (by simp) fun x hx => hfree x (List.mem_cons_of_mem p hx)]

/-! Word-wrap analysis, part 6: the stack and line invariants. -/

/-- Auxiliary: an all-whitespace chunk of space-only characters tests blank. -/
lemma chunkBlank_true_of_ws (c : List Char) (hso : ∀ x ∈ c, spaceOnly x)
    (hws : ∀ x ∈ c, isAsciiWs x = true) : chunkBlank c = true :=
  (chunkBlank_iff c hso).mpr (blankChunk_of_allWs c hso hws)

/-- Auxiliary: a nonempty whitespace-free chunk tests non-blank. -/
lemma chunkBlank_false_of_nonws (c : List Char) (hne : c ≠ [])
    (hso : ∀ x ∈ c, spaceOnly x) (hws : ∀ x ∈ c, isAsciiWs x = false) :
    chunkBlank c = false := by
  cases hb : chunkBlank c with
  | false => rfl
  | true =>
    exact absurd ((chunkBlank_iff c hso).mp hb) (not_blank_of_allNonWs c hne hws)

/-- Auxiliary: a well-formed chunk is an all-space blank chunk or a
whitespace-free chunk within the width. -/
lemma chunkOK_cases (c : List Char) (hc : ChunkOK c) :
    (chunkBlank c = true ∧ BlankChunk c ∧ (∀ x ∈ c, isAsciiWs x = true) ∧ c ≠ []) ∨
      (chunkBlank c = false ∧ (∀ x ∈ c, isAsciiWs x = false) ∧ c.length ≤ 35) := by
  obtain ⟨hne, hso, hd⟩ := hc
  rcases hd with hws | ⟨hws, hlen⟩
  · exact Or.inl ⟨chunkBlank_true_of_ws c hso hws, blankChunk_of_allWs c hso hws, hws, hne⟩
  · exact Or.inr ⟨chunkBlank_false_of_nonws c hne hso hws, hws, hlen⟩

/-- Auxiliary: a non-blank well-formed chunk is whitespace-free and fits. -/
lemma chunkOK_nonblank (c : List Char) (hc : ChunkOK c) (hb : chunkBlank c = false) :
    (∀ x ∈ c, isAsciiWs x = false) ∧ c.length ≤ 35 := by
  rcases chunkOK_cases c hc with ⟨hb1, _, _, _⟩ | ⟨_, h1, h2⟩
  · rw [hb1] at hb; cases hb
  · exact ⟨h1, h2⟩

/-- Auxiliary: a blank well-formed chunk is all spaces. -/
lemma chunkOK_blank (c : List Char) (hc : ChunkOK c) (hb : chunkBlank c = true) :
    BlankChunk c ∧ (∀ x ∈ c, isAsciiWs x = true) ∧ c ≠ [] := by
  rcases chunkOK_cases c hc with ⟨_, h1, h2, h3⟩ | ⟨hb2, _, _⟩
  · exact ⟨h1, h2, h3⟩
  · rw [hb2] at hb; cases hb

/-- Auxiliary: the stack invariant restricts to a right part. -/
lemma stackOK_of_append_right (l1 l2 : List (List Char)) (h : StackOK (l1 ++ l2)) :
    StackOK l2 :=
  ⟨fun c hc => h.1 c (List.mem_append_right l1 hc), (List.chain'_append.mp h.2).2.1⟩

/-- Auxiliary: the stack invariant restricts to the tail. -/
lemma stackOK_tail (c : List Char) (cs : List (List Char)) (h : StackOK (c :: cs)) :
    StackOK cs :=
  stackOK_of_append_right [c] cs h

/-- Auxiliary: an emitted line is well-formed when its chunks are, they fit the
width, and the final chunk is whitespace-free. -/
lemma lineOK_flatten (L : List (List Char)) (hne : L ≠ [])
    (hok : ∀ c ∈ L, ChunkOK c) (hsum : sumLen L ≤ 35)
    (hlast : ∀ z, L.getLast? = some z → ∀ x ∈ z, isAsciiWs x = false) :
    LineOK L.flatten := by
  refine ⟨flatten_ne_nil L hne fun c hc => (hok c hc).1, ?_, ?_, ?_⟩
  · rw [← sumLen_eq_flatten_length]
    exact hsum
  · intro c hc
    obtain ⟨z, hz, hcz⟩ := List.mem_flatten.mp hc
    exact (hok z hz).2.1 c hcz
  · intro a ha
    have hzne : L.getLast hne ≠ [] := (hok _ (List.getLast_mem hne)).1
    have hgl : L.getLast? = some (L.getLast hne) := List.getLast?_eq_getLast L hne
    have hfl := flatten_getLast_concat L.dropLast (L.getLast hne) hzne
    rw [List.dropLast_append_getLast hne] at hfl
    rw [hfl] at ha
    exact hlast _ hgl a (mem_of_getLast? ha)

/-- Auxiliary: the chunks of a space-only text form a well-formed stack once
the non-blank chunks fit the width. -/
lemma stackOK_splitChunks (t : List Char) (hso : ∀ c ∈ t, spaceOnly c)
    (hfit : ∀ ch ∈ splitChunks t, chunkBlank ch = false → ch.length ≤ 35) :
    StackOK (splitChunks t) := by
  constructor
  · intro c hc
    have hne := splitChunksGo_ne_nil t t.length 0 c hc
    have hso2 : ∀ x ∈ c, spaceOnly x :=
      fun x hx => hso x (splitChunksGo_mem t t.length 0 c hc x hx)
    refine ⟨hne, hso2, ?_⟩
    rcases splitChunksGo_dichotomy t t.length 0 c hc with hws | hws
    · exact Or.inl hws
    · exact Or.inr ⟨hws, hfit c hc (chunkBlank_false_of_nonws c hne hso2 hws)⟩
  · exact splitChunksGo_chain t t.length 0

/-- Auxiliary: the default last chunk of a nonempty list is its last chunk. -/
lemma getLastD_eq_getLast (L : List (List Char)) (h : L ≠ []) :
    L.getLastD [] = L.getLast h := by
  cases L with
  | nil => exact absurd rfl h
  | cons a as =>
    rw [List.getLastD_eq_getLast?, List.getLast?_eq_getLast (a :: as) h]
    rfl

/-- Auxiliary: the trailing drop removes a blank last chunk. -/
lemma chopTrailing_concat_blank (L : List (List Char)) (z : List Char)
    (hz : chunkBlank z = true) : chopTrailing (L ++ [z]) = L := by
  have hlast : chunkBlank ((L ++ [z]).getLastD []) = true := by
    rw [getLastD_eq_getLast (L ++ [z]) (by simp), List.getLast_append]
    exact hz
  unfold chopTrailing
  rw [if_pos ⟨by simp, hlast⟩]
  exact List.dropLast_concat

/-- Auxiliary: the trailing drop keeps a line whose last chunk is not blank. -/
lemma chopTrailing_eq_of_last_nonblank (L : List (List Char))
    (h : chunkBlank (L.getLastD []) = false) : chopTrailing L = L := by
  unfold chopTrailing
  rw [if_neg]
  intro hcond
  rw [h] at hcond
  exact absurd hcond.2 (by decide)

/-- Auxiliary: the trailing drop keeps a line holding a non-blank chunk
nonempty. -/
lemma chop_ne_of_nonblank (L : List (List Char)) (nb : List Char) (hnb : nb ∈ L)
    (hb : chunkBlank nb = false) : chopTrailing L ≠ [] := by
  have hLne : L ≠ [] := List.ne_nil_of_mem hnb
  unfold chopTrailing
  split
  next hcond =>
    have hlast : chunkBlank (L.getLast hLne) = true := by
      rw [← getLastD_eq_getLast L hLne]
      exact hcond.2
    have hsplit := List.dropLast_append_getLast hLne
    have hmem : nb ∈ L.dropLast := by
      have : nb ∈ L.dropLast ++ [L.getLast hLne] := by rw [hsplit]; exact hnb
      rcases List.mem_append.mp this with h1 | h1
      · exact h1
      · rw [List.mem_singleton.mp h1] at hb
        rw [hlast] at hb
        cases hb
    exact List.ne_nil_of_mem hmem
  next => exact hLne

/-- Auxiliary: the line left by the trailing drop is well-formed. -/
lemma lineOK_chop (L : List (List Char)) (hok : ∀ c ∈ L, ChunkOK c)
    (hchain : List.Chain' ChunkRel L) (hsum : sumLen L ≤ 35)
    (hne : chopTrailing L ≠ []) : LineOK (chopTrailing L).flatten := by
  by_cases hcond : ¬ L = [] ∧ chunkBlank (L.getLastD []) = true
  · have hchop : chopTrailing L = L.dropLast := by
      unfold chopTrailing
      rw [if_pos hcond]
    rw [hchop] at hne ⊢
    have hLne : L ≠ [] := hcond.1
    have hsplit := List.dropLast_append_getLast hLne
    have hlastOK := hok _ (List.getLast_mem hLne)
    have hlastBlank : chunkBlank (L.getLast hLne) = true := by
      rw [← getLastD_eq_getLast L hLne]
      exact hcond.2
    obtain ⟨hbl, hws, hlastne⟩ := chunkOK_blank _ hlastOK hlastBlank
    refine lineOK_flatten L.dropLast hne ?_ ?_ ?_
    · intro c hc
      exact hok c (List.Sublist.mem hc (List.dropLast_sublist L))
    · have : sumLen L = sumLen L.dropLast + (L.getLast hLne).length := by
        conv_lhs => rw [← hsplit]
        rw [sumLen_append, sumLen_cons, sumLen_nil]
        omega
      omega
    · intro z hz
      have hchain2 : List.Chain' ChunkRel (L.dropLast ++ [L.getLast hLne]) := by
        rw [hsplit]
        exact hchain
      have hrel := (List.chain'_append.mp hchain2).2.2 z hz (L.getLast hLne) rfl
      rcases hrel with h1 | h1
      · exact h1
      · obtain ⟨x, hx⟩ := List.exists_mem_of_ne_nil _ hlastne
        have hxs := hbl x hx
        have := h1 x hx
        rw [hxs] at this
        exact absurd this (by decide)
  · have hchop : chopTrailing L = L := by
      unfold chopTrailing
      rw [if_neg hcond]
    rw [hchop] at hne ⊢
    have hlastBlank : chunkBlank (L.getLastD []) = false := by
      cases hb : chunkBlank (L.getLastD []) with
      | false => rfl
      | true => exact absurd ⟨hne, hb⟩ hcond
    rw [getLastD_eq_getLast L hne] at hlastBlank
    have hlastOK := hok _ (List.getLast_mem hne)
    obtain ⟨hnws, _⟩ := chunkOK_nonblank _ hlastOK hlastBlank
    refine lineOK_flatten L hne hok hsum ?_
    intro z hz
    rw [List.getLast?_eq_getLast L hne] at hz
    injection hz with hz
    rw [← hz]
    exact hnws

/-- Auxiliary: case analysis on one packing-core run. -/
lemma wrapCore_eq (stack1 : List (List Char)) :
    ((packChunks 35 0 stack1).2 = [] ∧
        wrapCore 35 stack1 = (chopTrailing (packChunks 35 0 stack1).1, [])) ∨
      (∃ ch rt, (packChunks 35 0 stack1).2 = ch :: rt ∧ 35 < ch.length ∧
        wrapCore 35 stack1 =
          (chopTrailing ((packChunks 35 0 stack1).1 ++
              [(handleLongWord 35 (sumLen (packChunks 35 0 stack1).1) ch).1]),
            (handleLongWord 35 (sumLen (packChunks 35 0 stack1).1) ch).2 :: rt)) ∨
      (∃ ch rt, (packChunks 35 0 stack1).2 = ch :: rt ∧ ¬ 35 < ch.length ∧
        wrapCore 35 stack1 = (chopTrailing (packChunks 35 0 stack1).1, ch :: rt)) := by
  unfold wrapCore
  dsimp only
  cases hp2 : (packChunks 35 0 stack1).2 with
  | nil =>
    left
    refine ⟨rfl, ?_⟩
    rw [hp2]
  | cons ch rt =>
    dsimp only
    by_cases hlong : 35 < ch.length
    · right; left
      refine ⟨ch, rt, rfl, hlong, ?_⟩
      rw [if_pos hlong]
    · right; right
      refine ⟨ch, rt, rfl, hlong, ?_⟩
      rw [if_neg hlong, hp2]

/-- Auxiliary: an all-space chunk tests blank, with no side condition. -/
lemma chunkBlank_of_blank (c : List Char) (h : BlankChunk c) : chunkBlank c = true := by
  have hso : ∀ x ∈ c, spaceOnly x := fun x hx => by rw [h x hx]; decide
  exact (chunkBlank_iff c hso).mpr h

/-- Auxiliary: one packing-core run preserves the stack invariant, emits only a
well-formed line, consumes at least one unit of measure, and never loses all
non-blank content. -/
lemma wrapCore_spec (stack1 : List (List Char)) (hs : StackOK stack1) :
    StackOK (wrapCore 35 stack1).2 ∧
      ((wrapCore 35 stack1).1 ≠ [] → LineOK (wrapCore 35 stack1).1.flatten) ∧
      (stack1 ≠ [] →
        sumLen (wrapCore 35 stack1).2 + (wrapCore 35 stack1).2.length + 1
          ≤ sumLen stack1 + stack1.length) ∧
      ((∃ c ∈ stack1, chunkBlank c = false) →
        (∃ c ∈ (wrapCore 35 stack1).2, chunkBlank c = false) ∨
          (wrapCore 35 stack1).1 ≠ []) := by
  have happ := packChunks_append 35 0 stack1
  have hsum := packChunks_sum 35 0 stack1 (by omega)
  have hmem1 : ∀ c ∈ (packChunks 35 0 stack1).1, c ∈ stack1 := by
    intro c hc
    rw [← happ]
    exact List.mem_append_left _ hc
  have hchainS : List.Chain' ChunkRel
      ((packChunks 35 0 stack1).1 ++ (packChunks 35 0 stack1).2) := by
    rw [happ]
    exact hs.2
  have hchain1 : List.Chain' ChunkRel (packChunks 35 0 stack1).1 :=
    (List.chain'_append.mp hchainS).1
  rcases wrapCore_eq stack1 with ⟨hp2, heq⟩ | ⟨ch, rt, hp2, hlong, heq⟩ |
    ⟨ch, rt, hp2, hlong, heq⟩
  · -- everything was packed
    rw [hp2, List.append_nil] at happ
    rw [heq]
    dsimp only
    refine ⟨⟨fun c hc => absurd hc (List.not_mem_nil c), List.chain'_nil⟩, ?_, ?_, ?_⟩
    · intro hne
      exact lineOK_chop _ (fun c hc => hs.1 c (hmem1 c hc)) hchain1 (by omega) hne
    · intro hne
      have := List.length_pos.mpr hne
      rw [sumLen_nil]
      simp only [List.length_nil]
      omega
    · rintro ⟨nb, hnb, hb⟩
      right
      refine chop_ne_of_nonblank _ nb ?_ hb
      rw [happ]
      exact hnb
  · -- an over-long head chunk was split
    rw [hp2] at happ hchainS
    -- the over-long chunk is blank
    have hchmem : ch ∈ stack1 := by
      rw [← happ]
      exact List.mem_append_right _ (List.mem_cons_self ch rt)
    have hchOK := hs.1 ch hchmem
    rcases chunkOK_cases ch hchOK with ⟨hbt, hbl, hwsa, hchne⟩ | ⟨_, _, hle⟩
    swap
    · omega
    have hkle : sumLen (packChunks 35 0 stack1).1 ≤ 35 := by omega
    have hpmem := handleLongWord_mem 35 (sumLen (packChunks 35 0 stack1).1) ch
    have hpieceBlank : BlankChunk (handleLongWord 35 (sumLen (packChunks 35 0 stack1).1) ch).1 :=
      fun x hx => hbl x (hpmem.1 x hx)
    have hrestBlank : BlankChunk (handleLongWord 35 (sumLen (packChunks 35 0 stack1).1) ch).2 :=
      fun x hx => hbl x (hpmem.2 x hx)
    have hrest_ne : (handleLongWord 35 (sumLen (packChunks 35 0 stack1).1) ch).2 ≠ [] :=
      handleLongWord_rest_ne 35 _ ch (by omega) hlong hkle
    have hchop : chopTrailing ((packChunks 35 0 stack1).1 ++
        [(handleLongWord 35 (sumLen (packChunks 35 0 stack1).1) ch).1]) =
        (packChunks 35 0 stack1).1 :=
      chopTrailing_concat_blank _ _ (chunkBlank_of_blank _ hpieceBlank)
    rw [heq, hchop]
    dsimp only
    have hchHasSpace : ∃ x ∈ ch, isAsciiWs x = true := by
      obtain ⟨x, hx⟩ := List.exists_mem_of_ne_nil ch hchne
      exact ⟨x, hx, hwsa x hx⟩
    refine ⟨?_, ?_, ?_, ?_⟩
    · -- stack invariant for the remainder stack
      constructor
      · intro c hc
        rcases List.mem_cons.mp hc with h1 | h1
        · subst h1
          refine ⟨hrest_ne, fun x hx => by rw [hrestBlank x hx]; decide, Or.inl ?_⟩
          intro x hx
          rw [hrestBlank x hx]
          decide
        · refine hs.1 c ?_
          rw [← happ]
          exact List.mem_append_right _ (List.mem_cons_of_mem ch h1)
      · have hc2 := (List.chain'_append.mp hchainS).2.1
        obtain ⟨hrel, hrt⟩ := List.chain'_cons'.mp hc2
        refine List.chain'_cons'.mpr ⟨?_, hrt⟩
        intro y hy
        rcases hrel y hy with hA | hB
        · obtain ⟨x, hx, hxws⟩ := hchHasSpace
          rw [hA x hx] at hxws
          cases hxws
        · exact Or.inr hB
    · -- the emitted line
      intro hne
      refine lineOK_flatten _ hne (fun c hc => hs.1 c (hmem1 c hc)) (by omega) ?_
      intro z hz
      have hrel := (List.chain'_append.mp hchainS).2.2 z hz ch rfl
      rcases hrel with h1 | h1
      · exact h1
      · obtain ⟨x, hx, hxws⟩ := hchHasSpace
        rw [h1 x hx] at hxws
        cases hxws
    · -- the measure decreases
      intro _
      have hlen12 : (handleLongWord 35 (sumLen (packChunks 35 0 stack1).1) ch).1.length +
          (handleLongWord 35 (sumLen (packChunks 35 0 stack1).1) ch).2.length = ch.length := by
        have h1 := congrArg List.length
          (handleLongWord_append 35 (sumLen (packChunks 35 0 stack1).1) ch)
        rwa [List.length_append] at h1
      have hsplit1 : sumLen stack1 =
          sumLen (packChunks 35 0 stack1).1 + (ch.length + sumLen rt) := by
        conv_lhs => rw [← happ]
        rw [sumLen_append, sumLen_cons]
      have hsplit2 : stack1.length = (packChunks 35 0 stack1).1.length + (1 + rt.length) := by
        conv_lhs => rw [← happ]
        rw [List.length_append, List.length_cons]
        omega
      have hr : 1 ≤ (handleLongWord 35 (sumLen (packChunks 35 0 stack1).1) ch).2.length :=
        List.length_pos.mpr hrest_ne
      rw [sumLen_cons]
      simp only [List.length_cons]
      by_cases hP1 : (packChunks 35 0 stack1).1 = []
      · have hpne : (handleLongWord 35 (sumLen (packChunks 35 0 stack1).1) ch).1 ≠ [] := by
          rw [hP1]
          exact handleLongWord_piece_ne 35 ch (by omega) hlong
        have hp : 1 ≤ (handleLongWord 35 (sumLen (packChunks 35 0 stack1).1) ch).1.length :=
          List.length_pos.mpr hpne
        rw [hP1] at hsplit1 hsplit2
        rw [sumLen_nil] at hsplit1
        simp only [List.length_nil] at hsplit2
        omega
      · have hsplitP : 1 ≤ sumLen (packChunks 35 0 stack1).1 ∧
            1 ≤ (packChunks 35 0 stack1).1.length := by
          cases hc : (packChunks 35 0 stack1).1 with
          | nil => exact absurd hc hP1
          | cons c1 t1 =>
            have hc1mem : c1 ∈ (packChunks 35 0 stack1).1 := by
              rw [hc]
              exact List.mem_cons_self c1 t1
            have hc1len : 1 ≤ c1.length :=
              List.length_pos.mpr (hs.1 c1 (hmem1 c1 hc1mem)).1
            rw [sumLen_cons]
            simp only [List.length_cons]
            omega
        omega
    · -- non-blank content survives
      rintro ⟨nb, hnb, hb⟩
      rw [← happ] at hnb
      rcases List.mem_append.mp hnb with h1 | h1
      · right
        exact List.ne_nil_of_mem h1
      · rcases List.mem_cons.mp h1 with h2 | h2
        · rw [h2] at hb
          rw [chunkBlank_of_blank ch hbl] at hb
          cases hb
        · left
          exact ⟨nb, List.mem_cons_of_mem _ h2, hb⟩
  · -- the head of the remainder fits the width
    rw [hp2] at happ hchainS
    have hP1ne : (packChunks 35 0 stack1).1 ≠ [] := by
      intro h0
      have happ2 := happ
      rw [h0, List.nil_append] at happ2
      have h1 : (packChunks 35 0 stack1).1 = [] := h0
      rw [← happ2] at h1
      have hbig := packChunks_head_big 35 0 ch rt h1
      omega
    rw [heq]
    dsimp only
    refine ⟨?_, ?_, ?_, ?_⟩
    · refine ⟨?_, (List.chain'_append.mp hchainS).2.1⟩
      intro c hc
      exact hs.1 c (by rw [← happ]; exact List.mem_append_right _ hc)
    · intro hne
      exact lineOK_chop _ (fun c hc => hs.1 c (hmem1 c hc)) hchain1 (by omega) hne
    · intro _
      rw [← happ, sumLen_append, List.length_append]
      have h1 : 1 ≤ (packChunks 35 0 stack1).1.length := List.length_pos.mpr hP1ne
      omega
    · rintro ⟨nb, hnb, hb⟩
      rw [← happ] at hnb
      rcases List.mem_append.mp hnb with h1 | h1
      · right
        exact chop_ne_of_nonblank _ nb h1 hb
      · left
        exact ⟨nb, h1, hb⟩

/-- Auxiliary: one full wrap step preserves the invariants, decreases the
measure, and preserves the existence of output. -/
lemma wrapStep_spec (c0 : List Char) (rest0 lines : List (List Char))
    (hs : StackOK (c0 :: rest0)) (hl : ∀ l ∈ lines, LineOK l) :
    StackOK (wrapStep 35 c0 rest0 lines).1 ∧
      (∀ l ∈ (wrapStep 35 c0 rest0 lines).2, LineOK l) ∧
      sumLen (wrapStep 35 c0 rest0 lines).1 + (wrapStep 35 c0 rest0 lines).1.length + 1
        ≤ sumLen (c0 :: rest0) + (c0 :: rest0).length ∧
      (((∃ c ∈ c0 :: rest0, chunkBlank c = false) ∨ lines ≠ []) →
        (∃ c ∈ (wrapStep 35 c0 rest0 lines).1, chunkBlank c = false) ∨
          (wrapStep 35 c0 rest0 lines).2 ≠ []) := by
  have hc0len : 1 ≤ c0.length :=
    List.length_pos.mpr (hs.1 c0 (List.mem_cons_self c0 rest0)).1
  unfold wrapStep
  dsimp only
  by_cases hdrop : chunkBlank c0 ∧ ¬ lines = []
  · rw [if_pos hdrop]
    have hcs := wrapCore_spec rest0 (stackOK_tail _ _ hs)
    refine ⟨hcs.1, ?_, ?_, ?_⟩
    · intro l hlm
      by_cases hemit : ¬ (wrapCore 35 rest0).1 = []
      · rw [if_pos hemit] at hlm
        rcases List.mem_cons.mp hlm with h1 | h1
        · rw [h1]
          exact hcs.2.1 hemit
        · exact hl l h1
      · rw [if_neg hemit] at hlm
        exact hl l hlm
    · cases hr0 : rest0 with
      | nil =>
        have hcore : wrapCore 35 ([] : List (List Char)) = ([], []) := rfl
        rw [hcore]
        rw [sumLen_cons, sumLen_nil]
        simp only [List.length_cons, List.length_nil, sumLen_nil]
        omega
      | cons d ds =>
        have hmeas := hcs.2.2.1 (by rw [hr0]; exact List.cons_ne_nil d ds)
        rw [hr0] at hmeas
        simp only [sumLen_cons, List.length_cons] at hmeas ⊢
        omega
    · intro _
      right
      by_cases hemit : ¬ (wrapCore 35 rest0).1 = []
      · rw [if_pos hemit]
        exact List.cons_ne_nil _ _
      · rw [if_neg hemit]
        exact hdrop.2
  · rw [if_neg hdrop]
    have hcs := wrapCore_spec (c0 :: rest0) hs
    refine ⟨hcs.1, ?_, hcs.2.2.1 (List.cons_ne_nil c0 rest0), ?_⟩
    · intro l hlm
      by_cases hemit : ¬ (wrapCore 35 (c0 :: rest0)).1 = []
      · rw [if_pos hemit] at hlm
        rcases List.mem_cons.mp hlm with h1 | h1
        · rw [h1]
          exact hcs.2.1 hemit
        · exact hl l h1
      · rw [if_neg hemit] at hlm
        exact hl l hlm
    · intro hyp
      rcases hyp with hnb | hlne
      · rcases hcs.2.2.2 hnb with h1 | h1
        · exact Or.inl h1
        · right
          rw [if_pos h1]
          exact List.cons_ne_nil _ _
      · right
        by_cases hemit : ¬ (wrapCore 35 (c0 :: rest0)).1 = []
        · rw [if_pos hemit]
          exact List.cons_ne_nil _ _
        · rw [if_neg hemit]
          exact hlne

/-- Auxiliary: the wrap loop with sufficient fuel emits only well-formed lines,
and emits at least one line when the stack held non-blank content or lines were
already accumulated. -/
lemma wrapChunksGo_ok : ∀ fuel stack lines,
    StackOK stack → (∀ l ∈ lines, LineOK l) →
    sumLen stack + stack.length < fuel →
    (∀ l ∈ wrapChunksGo 35 fuel stack lines, LineOK l) ∧
      (((∃ c ∈ stack, chunkBlank c = false) ∨ lines ≠ []) →
        wrapChunksGo 35 fuel stack lines ≠ []) := by
  intro fuel
  induction fuel with
  | zero =>
    intro stack lines _ _ hf
    omega
  | succ f ih =>
    intro stack lines hs hl hf
    cases stack with
    | nil =>
      constructor
      · intro l hlm
        simp only [wrapChunksGo] at hlm
        exact hl l (List.mem_reverse.mp hlm)
      · intro hyp
        rcases hyp with ⟨c, hc, _⟩ | hne
        · exact absurd hc (List.not_mem_nil c)
        · simp only [wrapChunksGo]
          intro h0
          exact hne (by simpa using congrArg List.reverse h0)
    | cons c0 rest0 =>
      have hstep := wrapStep_spec c0 rest0 lines hs hl
      have hrec := ih (wrapStep 35 c0 rest0 lines).1 (wrapStep 35 c0 rest0 lines).2
        hstep.1 hstep.2.1 (by have := hstep.2.2.1; omega)
      simp only [wrapChunksGo]
      exact ⟨hrec.1, fun hyp => hrec.2 (hstep.2.2.2 hyp)⟩

/-- Auxiliary: `_wrap_chunks` on a well-formed stack emits only well-formed
lines, at least one when some chunk is non-blank. -/
lemma wrap_chunks_ok (chunks : List (List Char)) (h : StackOK chunks) :
    (∀ l ∈ wrap_chunks 35 chunks, LineOK l) ∧
      ((∃ c ∈ chunks, chunkBlank c = false) → wrap_chunks 35 chunks ≠ []) := by
  unfold wrap_chunks
  have hmain := wrapChunksGo_ok (sumLen chunks + chunks.length + 1) chunks []
    h (fun l hl => absurd hl (List.not_mem_nil l)) (by omega)
  exact ⟨hmain.1, fun hx => hmain.2 (Or.inl hx)⟩

/-- Auxiliary: the wrap loop with positive fuel and an empty stack returns the
accumulated lines. -/
lemma wrapChunksGo_nil_pos (width fuel : Nat) (lines : List (List Char))
    (hf : 0 < fuel) : wrapChunksGo width fuel [] lines = lines.reverse := by
  cases fuel with
  | zero => omega
  | succ f => rfl

/-- Auxiliary: splitting preserves the text. -/
lemma splitChunks_flatten (t : List Char) : (splitChunks t).flatten = t := by
  have h := splitChunksGo_flatten t t.length 0 (by omega) (by omega)
  simpa using h

/-- Auxiliary: a well-formed line is a fixed point of the wrapper. -/
lemma textwrap_wrap_fixed (l : List Char) (h : LineOK l) :
    textwrap_wrap 35 ⟨l⟩ = [(⟨l⟩ : String)] := by
  obtain ⟨hne, hlen, hso, hlast⟩ := h
  have hflat := splitChunks_flatten l
  have hchne : splitChunks l ≠ [] := by
    intro h0
    rw [h0] at hflat
    exact hne hflat.symm
  have hsum : sumLen (splitChunks l) = l.length := by
    rw [sumLen_eq_flatten_length, hflat]
  have hzmem : (splitChunks l).getLast hchne ∈ splitChunks l := List.getLast_mem hchne
  have hzne : (splitChunks l).getLast hchne ≠ [] :=
    splitChunksGo_ne_nil l l.length 0 _ hzmem
  have hfl2 := flatten_getLast_concat (splitChunks l).dropLast _ hzne
  rw [List.dropLast_append_getLast hchne] at hfl2
  rw [hflat] at hfl2
  have hlg : l.getLast? = some (l.getLast hne) := List.getLast?_eq_getLast l hne
  have hza : ((splitChunks l).getLast hchne).getLast? = some (l.getLast hne) := by
    rw [← hfl2]
    exact hlg
  have hamem : l.getLast hne ∈ (splitChunks l).getLast hchne := mem_of_getLast? hza
  have haws : isAsciiWs (l.getLast hne) = false := hlast _ hlg
  have hznb : chunkBlank ((splitChunks l).getLast hchne) = false := by
    rcases splitChunksGo_dichotomy l l.length 0 _ hzmem with hws | hnws
    · rw [hws _ hamem] at haws
      cases haws
    · exact chunkBlank_false_of_nonws _ hzne
        (fun x hx => hso x (splitChunksGo_mem l l.length 0 _ hzmem x hx)) hnws
  have hlastD : (splitChunks l).getLastD [] = (splitChunks l).getLast hchne :=
    getLastD_eq_getLast _ hchne
  have hcore : wrapCore 35 (splitChunks l) = (splitChunks l, []) := by
    unfold wrapCore
    dsimp only
    rw [packChunks_all 35 0 (splitChunks l) (by omega)]
    dsimp only
    rw [chopTrailing_eq_of_last_nonblank _ (by rw [hlastD]; exact hznb)]
  obtain ⟨c, cs, hc⟩ : ∃ c cs, splitChunks l = c :: cs := by
    cases h0 : splitChunks l with
    | nil => exact absurd h0 hchne
    | cons c cs => exact ⟨c, cs, rfl⟩
  have hnodrop : ¬ (chunkBlank c ∧ ¬ ([] : List (List Char)) = []) :=
    fun hcon => hcon.2 rfl
  have hstep : wrapStep 35 c cs [] = ([], [l]) := by
    unfold wrapStep
    dsimp only
    rw [if_neg hnodrop]
    rw [← hc, hcore]
    dsimp only
    rw [if_pos hchne, hflat]
  have hwrap : wrap_chunks 35 (splitChunks l) = [l] := by
    unfold wrap_chunks
    rw [hc]
    simp only [wrapChunksGo]
    rw [hstep]
    dsimp only
    rw [wrapChunksGo_nil_pos 35 _ [l] (by have h1 : (c :: cs).length = cs.length + 1 := rfl; omega)]
    rfl
  show (wrap_chunks 35 (splitChunks (mungeWhitespace l))).map (fun x => (⟨x⟩ : String)) = [⟨l⟩]
  rw [mungeWhitespace_id l hso, hwrap]
  rfl

/-- Auxiliary: a flatMap over a mapped list. -/
lemma flatMap_of_map {α β γ : Type} (L : List α) (f : α → β) (g : β → List γ) :
    (L.map f).flatMap g = L.flatMap fun a => g (f a) := by
  induction L with
  | nil => rfl
  | cons a as ih => simp [List.flatMap_cons, ih]

/-- Auxiliary: wrapping a tame paragraph whose non-blank chunks fit the width
emits only well-formed lines, at least one when the paragraph has content. -/
lemma textwrap_wrap_lines (p : List Char) (htame : ∀ c ∈ p, tameChar c)
    (hfit : ∀ ch ∈ splitChunks (mungeWhitespace p),
      chunkBlank ch = false → ch.length ≤ 35) :
    (∀ s ∈ textwrap_wrap 35 ⟨p⟩, LineOK s.data) ∧
      (pyIsBlank p = false → textwrap_wrap 35 ⟨p⟩ ≠ []) := by
  have hso : ∀ c ∈ mungeWhitespace p, spaceOnly c := mungeWhitespace_spaceOnly p htame
  have hstack := stackOK_splitChunks (mungeWhitespace p) hso hfit
  have hmain := wrap_chunks_ok (splitChunks (mungeWhitespace p)) hstack
  constructor
  · intro s hs
    have hs2 : s ∈ (wrap_chunks 35 (splitChunks (mungeWhitespace p))).map
        (fun x => (⟨x⟩ : String)) := hs
    obtain ⟨y, hins, hmk⟩ := List.mem_map.mp hs2
    have hok := hmain.1 y hins
    rw [← hmk]
    exact hok
  · intro hpb
    obtain ⟨x, hxp, hxs⟩ : ∃ x ∈ p, isPySpace x = false := by
      rcases List.all_eq_false.mp hpb with ⟨x, hx1, hx2⟩
      exact ⟨x, hx1, Bool.eq_false_iff.mpr hx2⟩
    have hxm : x ∈ mungeWhitespace p := mungeWhitespace_mem_of_not_space p x hxp hxs
    have hxf : x ∈ (splitChunks (mungeWhitespace p)).flatten := by
      rw [splitChunks_flatten]
      exact hxm
    obtain ⟨ch, hch, hxch⟩ := List.mem_flatten.mp hxf
    have hchnb : chunkBlank ch = false := by
      rcases splitChunksGo_dichotomy _ _ 0 ch hch with hws | hnws
      · have h1 := isPySpace_of_isAsciiWs x (hws x hxch)
        rw [h1] at hxs
        cases hxs
      · exact chunkBlank_false_of_nonws ch (splitChunksGo_ne_nil _ _ 0 ch hch)
          (fun y hy => hso y (splitChunksGo_mem _ _ 0 ch hch y hy)) hnws
    have hne := hmain.2 ⟨ch, hch, hchnb⟩
    intro h0
    exact hne (List.map_eq_nil_iff.mp h0)

/-- Auxiliary: each wrapped line of a tame, fitting message is an empty blank
marker or a well-formed line, and there is at least one. -/
lemma wrapped_lines_spec (m : String) (htame : ∀ c ∈ m.data, tameChar c)
    (hfit : ∀ p ∈ paragraphsOf m, ∀ ch ∈ splitChunks (mungeWhitespace p),
      chunkBlank ch = false → ch.length ≤ 35) :
    wrapped_lines_of m ≠ [] ∧
      ∀ s ∈ wrapped_lines_of m, s.data = [] ∨ LineOK s.data := by
  have htameP : ∀ p ∈ paragraphsOf m, ∀ c ∈ p, tameChar c := by
    intro p hp c hc
    exact htame c (splitOnChar_mem lfC m.data p hp c hc).1
  constructor
  · refine flatMap_ne_nil _ _ (splitOnChar_ne_nil lfC m.data) ?_
    intro p hp
    cases hb : pyIsBlank p with
    | true =>
      rw [if_neg (by intro hcon; exact hcon rfl)]
      exact List.cons_ne_nil _ _
    | false =>
      rw [if_pos (by exact fun h => Bool.false_ne_true h)]
      exact (textwrap_wrap_lines p (htameP p hp) (hfit p hp)).2 hb
  · intro s hs
    obtain ⟨p, hp, hsp⟩ := List.mem_flatMap.mp hs
    cases hb : pyIsBlank p with
    | true =>
      rw [if_neg (by rw [hb]; intro hcon; exact hcon rfl)] at hsp
      left
      rw [List.mem_singleton.mp hsp]
    | false =>
      rw [if_pos (by rw [hb]; exact fun h => Bool.false_ne_true h)] at hsp
      right
      exact (textwrap_wrap_lines p (htameP p hp) (hfit p hp)).1 s hsp

/-- Auxiliary: a well-formed line is not blank. -/
lemma lineOK_not_blank (l : List Char) (h : LineOK l) : pyIsBlank l = false := by
  obtain ⟨hne, _, hso, hlast⟩ := h
  have hlg : l.getLast? = some (l.getLast hne) := List.getLast?_eq_getLast l hne
  have haws := hlast _ hlg
  have hmemb : l.getLast hne ∈ l := List.getLast_mem hne
  cases hps : isPySpace (l.getLast hne) with
  | false =>
    unfold pyIsBlank
    refine List.all_eq_false.mpr ⟨l.getLast hne, hmemb, ?_⟩
    rw [hps]
    exact Bool.false_ne_true
  | true =>
    have hsp := hso _ hmemb hps
    rw [hsp] at haws
    exact absurd haws (by decide)

/-- C6: the message word-wrap of `render_message_side` is idempotent at width
35 on the output of a previous wrap, with explicit newlines preserved as
paragraph breaks and blank lines preserved — provided the message contains no
exotic Unicode whitespace (every `str.strip`-whitespace character is ASCII
whitespace) and no chunk of any paragraph exceeds the width once non-blank.
Re-wrapping the joined output of `wrapped_lines_of` reproduces it exactly. -/
theorem C6_wrap_idempotent (m : String)
    (htame : ∀ c ∈ m.data, tameChar c)
    (hfit : ∀ p ∈ paragraphsOf m, ∀ ch ∈ splitChunks (mungeWhitespace p),
      chunkBlank ch = false → ch.length ≤ 35) :
    wrapped_lines_of (joinNl (wrapped_lines_of m)) = wrapped_lines_of m := by
  obtain ⟨hLne, hLmem⟩ := wrapped_lines_spec m htame hfit
  have hpar : paragraphsOf (joinNl (wrapped_lines_of m)) =
      (wrapped_lines_of m).map String.data := by
    show splitOnChar lfC (joinNlChars ((wrapped_lines_of m).map String.data)) = _
    refine splitOnChar_joinNl _ ?_ ?_
    · intro h0
      exact hLne (List.map_eq_nil_iff.mp h0)
    · intro p hp
      obtain ⟨s, hsm, hsd⟩ := List.mem_map.mp hp
      rcases hLmem s hsm with hd | hok
      · rw [← hsd, hd]
        exact List.not_mem_nil lfC
      · rw [← hsd]
        intro hmem
        have h1 : lfC = ' ' := hok.2.2.1 lfC hmem (by decide)
        exact absurd h1 (by decide)
  show (paragraphsOf (joinNl (wrapped_lines_of m))).flatMap
      (fun p => if ¬ pyIsBlank p then textwrap_wrap 35 ⟨p⟩ else [""]) = wrapped_lines_of m
  rw [hpar, flatMap_of_map]
  refine flatMap_id_of_singleton _ _ ?_
  intro s hsm
  rcases hLmem s hsm with hd | hok
  · have hs0 : s = "" := by
      cases s with
      | mk d =>
        have hd2 : d = [] := hd
        rw [hd2]
    rw [hd]
    rw [if_neg (fun hcon => hcon rfl)]
    rw [hs0]
  · have hnb : pyIsBlank s.data = false := lineOK_not_blank s.data hok
    rw [if_pos (by rw [hnb]; exact fun h => Bool.false_ne_true h)]
    exact textwrap_wrap_fixed s.data hok

/-- Witness for C6: a concrete two-paragraph message satisfying the amended
hypotheses, on which re-wrapping the wrap output reproduces it. -/
theorem C6_wrap_idempotent_witness :
    (∀ c ∈ c6msg.data, tameChar c) ∧
      (∀ p ∈ paragraphsOf c6msg, ∀ ch ∈ splitChunks (mungeWhitespace p),
        chunkBlank ch = false → ch.length ≤ 35) ∧
      wrapped_lines_of (joinNl (wrapped_lines_of c6msg)) = wrapped_lines_of c6msg :=
  ⟨by decide, by decide, C6_wrap_idempotent c6msg (by decide) (by decide)⟩

/-- Counterexample for C6 as stated: for the message of `c6bad` (a 34-character
word, a space, then a 40-character word) the first wrap emits a line with a
trailing space, which a second wrap strips, so the wrap of the message pane is
not idempotent without the amendment. -/
theorem C6_counterexample :
    wrapped_lines_of (joinNl (wrapped_lines_of c6bad)) ≠ wrapped_lines_of c6bad := by
  decide

end MapToPoster
